import Mathlib

/-!
# Package `radix`: a compressed prefix tree over strings

Shallow embedding of `src/radix/radix.go` and the properties of its three
operations `Insert`, `Contains` and `Remove`.

Conventions of the embedding.

* A Go `string` is a finite sequence of bytes.  The code only compares bytes
  for equality and cuts strings at the length of a shared prefix, so a string
  is modelled as a list over an alphabet with decidable equality (`Char`).
* The Go code mutates the tree in place through pointers into slices.  Here
  every operation returns the new tree together with its Go return value.
* `for i := range children` becomes recursion over the list of children; the
  body of that loop for one child is a function of its own (`insertStep`,
  `containsStep`), whose result `none` is the Go `continue`.
* `curTree = &e.st ... break`, followed by the next round of the outer `for`,
  becomes the recursive call on the children of `e`.
* `Remove` hands `remove` a pointer to the parent edge, the slice of its
  children and an index.  Here the loop carries the two fields of the parent
  that `remove` may overwrite and the children already passed (`before`), so
  that the index is `before.length`.
* All functions are total by structural recursion on the tree.
-/

namespace Radix

/-- Go `string`: a sequence of bytes. -/
abbrev Str := List Char

/-- Go `type edge struct { label string; isFinal bool; st subtree }`, where
`subtree` is the one-field struct `{ children []edge }`. -/
inductive edge where
  | mk (label : Str) (isFinal : Bool) (st : List edge) : edge

/-- Go `type subtree struct { children []edge }`. -/
abbrev subtree := List edge

/-- Field `label`. -/
def edge.label : edge → Str
  | .mk l _ _ => l

/-- Field `isFinal`. -/
def edge.isFinal : edge → Bool
  | .mk _ f _ => f

/-- Field `st.children`. -/
def edge.st : edge → subtree
  | .mk _ _ c => c

/-- Go `type Tree struct { root subtree }`. -/
structure Tree where
  root : subtree

/-- Go `New`: the empty tree. -/
def New : Tree := ⟨[]⟩

/-- Go `newSubtree`. -/
def newSubtree : subtree := []

/-- Go `newEdge`. -/
def newEdge (label : Str) (isFinal : Bool) : edge := edge.mk label isFinal newSubtree

/-- Go `(*subtree).AddChild`: append a final, childless edge. -/
def AddChild (t : subtree) (label : Str) : subtree := t ++ [newEdge label true]

/-- Go `sharedPrefix`: the longest common leading part of two strings.  The
loop stops at the first position where the bytes differ or where the shorter
string ends. -/
def sharedPrefix : Str → Str → Str
  | a :: s1, b :: s2 => if a ≠ b then [] else a :: sharedPrefix s1 s2
  | _, _ => []

/-! ## Insert -/

mutual
/-- Body of the inner loop of `Insert` (lines 33-74) for the child `e` and the
remaining string `str`.  `some (e1, r)`: the loop is left, `e` has become `e1`
and `Insert` returns `r`.  `none`: none of the three branches applies and the
loop goes on to the next child. -/
def insertStep (e : edge) (str : Str) : Option (edge × Bool) :=
  match e with
  | .mk label isFinal st =>
    let shared := sharedPrefix str label
    if str = shared then
      -- e.isFinal = true; return false
      some (edge.mk label true st, false)
    else if shared = label then
      -- curTree = &e.st; str = str[len(shared):]; break
      let r := insertLoop st (str.drop shared.length)
      some (edge.mk label isFinal r.1, r.2)
    else if shared.length > 0 then
      -- split the edge
      let str1 := str.drop shared.length
      let labelPostfix := label.drop shared.length
      let newE := edge.mk labelPostfix isFinal st
      some (edge.mk shared false [newE, newEdge str1 true], true)
    else
      none
termination_by structural e
/-- The outer loop of `Insert` entered with `curTree.children = children`:
scan the children in order; when no child took a branch, `AddChild`. -/
def insertLoop (children : subtree) (str : Str) : subtree × Bool :=
  match children with
  | [] => (AddChild [] str, true)
  | e :: rest =>
    match insertStep e str with
    | some r => (r.1 :: rest, r.2)
    | none =>
      let r := insertLoop rest str
      (e :: r.1, r.2)
termination_by structural children
end

/-- Go `(*Tree).Insert`: the tree after the call and the returned flag. -/
def Insert (m : Tree) (str : Str) : Tree × Bool :=
  if str.length = 0 then (m, false)
  else
    let r := insertLoop m.root str
    (⟨r.1⟩, r.2)

/-! ## Contains -/

mutual
/-- Body of the inner loop of `Contains` (lines 102-120) for the child `e`.
`some b`: `Contains` returns `b`.  `none`: `continue`. -/
def containsStep (e : edge) (str : Str) (pfx : Bool) : Option Bool :=
  match e with
  | .mk label isFinal st =>
    if str = label then some (pfx || isFinal)
    else
      let shared := sharedPrefix str label
      if shared.length = 0 then none
      else if shared = label then
        some (containsLoop st (str.drop shared.length) pfx)
      else if pfx && shared = str then some true
      else some false
termination_by structural e
/-- The outer loop of `Contains` entered with `curTree.children = children`. -/
def containsLoop (children : subtree) (str : Str) (pfx : Bool) : Bool :=
  match children with
  | [] => false
  | e :: rest =>
    match containsStep e str pfx with
    | some b => b
    | none => containsLoop rest str pfx
termination_by structural children
end

/-- Go `(*Tree).Contains`. -/
def Contains (m : Tree) (str : Str) (pfx : Bool) : Bool :=
  if str.length = 0 then true
  else if m.root.length = 0 then false
  else containsLoop m.root str pfx

/-! ## Remove -/

/-- What `Remove` may write to: the fields `label` and `isFinal` of the edge
`curEdge` (absent, Go `nil`, at the root), the slice `curTree.children`, and
the value returned. -/
structure Removal where
  parent : Option (Str × Bool)
  children : subtree
  ret : Bool

/-- Go `(*Tree).remove(parent, parentTree, e, i, prefix)`.  The slice
`parentTree.children` and the index `i` are given as the split
`before ++ e :: after` with `i = before.length`; `parent` carries the fields
`label` and `isFinal` of the parent edge (its `st` is `parentTree`). -/
def remove (parent : Option (Str × Bool)) (before : subtree) (e : edge) (after : subtree)
    (pfx : Bool) : Removal :=
  if !pfx && !e.isFinal then
    ⟨parent, before ++ e :: after, false⟩
  else if pfx || e.st.length = 0 then
    -- copy(children[i:], children[i+1:]); parentTree.children = children[:len(children)-1]
    match parent, before ++ after with
    | some (plabel, false), [mergeEdge] =>
      ⟨some (plabel ++ mergeEdge.label, mergeEdge.isFinal), mergeEdge.st, true⟩
    | _, children => ⟨parent, children, true⟩
  else
    -- only e.isFinal = false
    ⟨parent, before ++ edge.mk e.label false e.st :: after, true⟩

mutual
/-- The rounds of the outer loop of `Remove` after `curEdge = e;
curTree = &e.st` (lines 159-163): the edge `e` afterwards and the value
returned. -/
def removeInto (e : edge) (str : Str) (pfx : Bool) : edge × Bool :=
  match e with
  | .mk label isFinal st =>
    let r := removeLoop (some (label, isFinal)) [] st str pfx
    match r.parent with
    | some p => (edge.mk p.1 p.2 r.children, r.ret)
    | none => (edge.mk label isFinal r.children, r.ret)
termination_by structural e
/-- The inner loop of `Remove` (lines 149-168) at index `before.length` of
`curTree.children = before ++ todo`, with `curEdge = parent`. -/
def removeLoop (parent : Option (Str × Bool)) (before todo : subtree) (str : Str)
    (pfx : Bool) : Removal :=
  match todo with
  | [] => ⟨parent, before, false⟩
  | e :: rest =>
    if str = e.label then remove parent before e rest pfx
    else
      let shared := sharedPrefix str e.label
      if shared = e.label then
        let r := removeInto e (str.drop shared.length) pfx
        ⟨parent, before ++ r.1 :: rest, r.2⟩
      else if pfx && shared = str then remove parent before e rest pfx
      else removeLoop parent (before ++ [e]) rest str pfx
termination_by structural todo
end

/-- Go `(*Tree).Remove`: the tree after the call and the returned flag. -/
def Remove (m : Tree) (str : Str) (pfx : Bool) : Tree × Bool :=
  if str.length = 0 then
    (if pfx then ⟨newSubtree⟩ else m, pfx)
  else if m.root.length = 0 then (m, false)
  else
    let r := removeLoop none [] m.root str pfx
    (⟨r.children⟩, r.ret)

/-! ## Trees that the API can build -/

/-- The trees reachable from `New()` by a finite sequence of `Insert` and
`Remove` calls (either mode). -/
inductive Reachable : Tree → Prop where
  | new : Reachable New
  | insert (m : Tree) (str : Str) : Reachable m → Reachable (Insert m str).1
  | remove (m : Tree) (str : Str) (pfx : Bool) : Reachable m → Reachable (Remove m str pfx).1

/-- The tree obtained from `New()` by inserting the given strings in order. -/
def build (strs : List Str) : Tree := strs.foldl (fun m s => (Insert m s).1) New

/-! ## The set a tree stands for -/

/-- Paths: `IsPath children p` says that `p` is a non-empty chain of edges that
starts with an edge of `children` and goes from each edge to one of its own
children. -/
def IsPath : subtree → List edge → Prop
  | _, [] => False
  | children, e :: p => e ∈ children ∧ (p = [] ∨ IsPath e.st p)

/-- The concatenation of the labels along a chain of edges. -/
def spelled (p : List edge) : Str := (p.map edge.label).flatten

/-- Membership as the data model words it: there is a path of edges from the
root whose labels concatenate to exactly `s` and whose last edge is final. -/
def Member (children : subtree) (s : Str) : Prop :=
  ∃ p : List edge, IsPath children p ∧ spelled p = s ∧
    ∃ e, p.getLast? = some e ∧ e.isFinal = true

/-- The members whose path starts with the edge `e`: the label itself when `e`
is final, and the label followed by a member of the subtree of `e`. -/
def Through (e : edge) (t : Str) : Prop :=
  (e.isFinal = true ∧ t = e.label) ∨ ∃ s, Member e.st s ∧ t = e.label ++ s

/-! ## Structural invariant -/

mutual
/-- The invariant below, for the edge `e` and everything under it. -/
def edgeInv (e : edge) : Prop :=
  match e with
  | .mk label _ st => label ≠ [] ∧ subtreeInv st
termination_by structural e
/-- Every label in the subtree is non-empty and the labels of two siblings
never share a non-empty prefix. -/
def subtreeInv (children : subtree) : Prop :=
  match children with
  | [] => True
  | e :: rest =>
    edgeInv e ∧ (∀ e1 ∈ rest, sharedPrefix e.label e1.label = []) ∧ subtreeInv rest
termination_by structural children
end

/-! ## Where the descent of an exact removal ends -/

mutual
/-- The loop `descentLoop` after `curTree = &e.st`. -/
def descentInto (e : edge) (str : Str) : Option edge :=
  match e with
  | .mk _ _ st => descentLoop st str
termination_by structural e
/-- The edge on which the descent of `Remove(str, false)` ends: the argument
`e` of the call `m.remove(curEdge, curTree, e, i, prefix)` at line 152, or
`none` when the loop gives up at line 171.  (With `prefix = false` the call
at line 166 is never made.) -/
def descentLoop (children : subtree) (str : Str) : Option edge :=
  match children with
  | [] => none
  | e :: rest =>
    if str = e.label then some e
    else if sharedPrefix str e.label = e.label then
      descentInto e (str.drop (sharedPrefix str e.label).length)
    else descentLoop rest str
termination_by structural children
end

/-! ## Example trees -/

/-- After `Insert("ab")`. -/
def treeAb : Tree := build ["ab".toList]

/-- After `Insert("ab")`, `Insert("ac")`: a non-final edge `a` with the final
children `b` and `c`. -/
def treeAbAc : Tree := build ["ab".toList, "ac".toList]

/-- After `Insert("a")`, `Insert("ab")`, `Remove("a", false)`,
`Remove("ab", false)`: a single edge `a`, not final, without children. -/
def treeDeadEdge : Tree :=
  (Remove (Remove (build ["a".toList, "ab".toList]) "a".toList false).1 "ab".toList false).1

/-- After `Insert("foobar")`, `Insert("fool")` (the tree of `TestRadixRemove`). -/
def treeFoobarFool : Tree := build ["foobar".toList, "fool".toList]

/-! ## What a removal has to achieve -/

/-- The part of the tree that `remove` may write to, as a slice of its own: the
parent edge together with its children or, at the root, the children. -/
def assemble (parent : Option (Str × Bool)) (children : subtree) : subtree :=
  match parent with
  | none => children
  | some p => [edge.mk p.1 p.2 children]

/-- The label of `curEdge`; empty at the root. -/
def parentLabel (parent : Option (Str × Bool)) : Str :=
  match parent with
  | none => []
  | some p => p.1

/-- The strings that a removal of `s` aims at: `s` itself in exact mode, every
string that starts with `s` in prefix mode. -/
def Hit (pfx : Bool) (s t : Str) : Prop :=
  if pfx = true then s <+: t else t = s

/-- The result `r` of removing `str` below `parent`, whose children were
`children`: the invariant holds again, the parent is still there and its label
has only grown at the end, and the members are the former members that the
removal does not aim at. -/
def RemovalSpec (parent : Option (Str × Bool)) (children : subtree) (str : Str) (pfx : Bool)
    (r : Removal) : Prop :=
  subtreeInv (assemble r.parent r.children) ∧
  r.parent.isSome = parent.isSome ∧
  parentLabel parent <+: parentLabel r.parent ∧
  ∀ t, Member (assemble r.parent r.children) t ↔
    (Member (assemble parent children) t ∧ ¬ Hit pfx (parentLabel parent ++ str) t)

/-! ## Edges and sibling slices of a tree -/

/-- The edges of the tree below `children`: the ends of its paths. -/
def IsEdge (children : subtree) (e : edge) : Prop :=
  ∃ p : List edge, IsPath children p ∧ p.getLast? = some e

/-- The slices of siblings of the tree below `children`: the children of the
root and the children of each edge. -/
def IsSlice (children : subtree) (sl : subtree) : Prop :=
  sl = children ∨ ∃ e, IsEdge children e ∧ sl = e.st

/-! ## The place in the tree that the descent of Insert reaches -/

/-- One level passed on the way down: the edge entered (its `label` and
`isFinal`), and its siblings `before` and `after` it in their slice. -/
structure Frame where
  before : subtree
  label : Str
  isFinal : Bool
  after : subtree

/-- The tree that has the slice `sl` below the frames `ctx` (outermost frame
first). -/
def plug : List Frame → subtree → subtree
  | [], sl => sl
  | fr :: ctx, sl => fr.before ++ edge.mk fr.label fr.isFinal (plug ctx sl) :: fr.after

/-- The descent of `Insert`, started with `str` at the outermost slice, goes
down through the frames `ctx` and arrives with the remaining string `r`: in
each frame the loop passes over the children in `before` (none of the three
branches applies) and at the edge of the frame takes the branch of line 46
(`str` is not `shared`, and `shared == e.label`). -/
def InsertDescends : List Frame → Str → Str → Prop
  | [], str, r => str = r
  | fr :: ctx, str, r =>
    (∀ e ∈ fr.before, insertStep e str = none) ∧
    str ≠ sharedPrefix str fr.label ∧ sharedPrefix str fr.label = fr.label ∧
    InsertDescends ctx (str.drop (sharedPrefix str fr.label).length) r

/-! ## One round of each descent loop -/

/-- One round of the outer loop of `Insert`, control flow only.
`some (st, str1)`: the round ends with `curTree = &e.st;
str = str[len(shared):]; break` and the next round starts with the children
`st` and the string `str1`.  `none`: the round returns. -/
def insertNext (children : subtree) (str : Str) : Option (subtree × Str) :=
  match children with
  | [] => none
  | e :: rest =>
    if str = sharedPrefix str e.label then none
    else if sharedPrefix str e.label = e.label then
      some (e.st, str.drop (sharedPrefix str e.label).length)
    else if (sharedPrefix str e.label).length > 0 then none
    else insertNext rest str

/-- One round of the outer loop of `Contains`, control flow only (the mode
only decides which value a returning round returns). -/
def containsNext (children : subtree) (str : Str) : Option (subtree × Str) :=
  match children with
  | [] => none
  | e :: rest =>
    if str = e.label then none
    else if (sharedPrefix str e.label).length = 0 then containsNext rest str
    else if sharedPrefix str e.label = e.label then
      some (e.st, str.drop (sharedPrefix str e.label).length)
    else none

/-- One round of the outer loop of `Remove`, control flow only. -/
def removeNext (children : subtree) (str : Str) (pfx : Bool) : Option (subtree × Str) :=
  match children with
  | [] => none
  | e :: rest =>
    if str = e.label then none
    else if sharedPrefix str e.label = e.label then
      some (e.st, str.drop (sharedPrefix str e.label).length)
    else if pfx && sharedPrefix str e.label = str then none
    else removeNext rest str pfx

/-- Running a loop round by round: true when it returns within `n` rounds. -/
def roundsWithin (next : subtree → Str → Option (subtree × Str)) :
    Nat → subtree → Str → Bool
  | 0, _, _ => false
  | n + 1, children, str =>
    match next children str with
    | none => true
    | some r => roundsWithin next n r.1 r.2

mutual
/-- The number of levels at and below the edge `e`. -/
def edgeHeight (e : edge) : Nat :=
  match e with
  | .mk _ _ st => height st + 1
termination_by structural e
/-- The number of levels of the tree below `children`. -/
def height (children : subtree) : Nat :=
  match children with
  | [] => 0
  | e :: rest => max (edgeHeight e) (height rest)
termination_by structural children
end

/-! ## More example trees -/

/-- After `Insert("xa")`, `Insert("xab")`, `Insert("xc")`: the non-final edge
`x` with the children `a` (final, with the child `b`) and `c`. -/
def treeXaXabXc : Tree := build ["xa".toList, "xab".toList, "xc".toList]

/-- After `Insert("abc")`, `Insert("abd")`: the non-final edge `ab` with the
children `c` and `d`. -/
def treeAbcAbd : Tree := build ["abc".toList, "abd".toList]

/-- After `Insert("foo")`, `Insert("foobar")`, `Insert("fool")`: the final
edge `foo` with the children `bar` and `l`. -/
def treeFooFoobarFool : Tree := build ["foo".toList, "foobar".toList, "fool".toList]

/-- A tree that no sequence of calls builds: one edge with the empty label. -/
def treeEmptyLabel : Tree := ⟨[edge.mk [] false []]⟩

/-! ## Fields of a built edge -/

@[simp] theorem edge.label_mk (l : Str) (f : Bool) (st : subtree) :
    (edge.mk l f st).label = l := rfl

@[simp] theorem edge.isFinal_mk (l : Str) (f : Bool) (st : subtree) :
    (edge.mk l f st).isFinal = f := rfl

@[simp] theorem edge.st_mk (l : Str) (f : Bool) (st : subtree) :
    (edge.mk l f st).st = st := rfl

/-! ## The shared prefix -/

theorem sharedPrefix_nil_left (b : Str) : sharedPrefix [] b = [] := by
  cases b <;> rfl

theorem sharedPrefix_nil_right (a : Str) : sharedPrefix a [] = [] := by
  cases a <;> rfl

theorem sharedPrefix_cons (x y : Char) (a b : Str) :
    sharedPrefix (x :: a) (y :: b) = if x ≠ y then [] else x :: sharedPrefix a b := rfl

theorem sharedPrefix_prefix_left (a b : Str) : sharedPrefix a b <+: a := by
  induction a generalizing b with
  | nil => simp [sharedPrefix_nil_left]
  | cons x a ih =>
    cases b with
    | nil => simp [sharedPrefix_nil_right]
    | cons y b =>
      rw [sharedPrefix_cons]
      split
      · exact List.nil_prefix
      · exact (List.prefix_cons_inj x).2 (ih b)

theorem sharedPrefix_prefix_right (a b : Str) : sharedPrefix a b <+: b := by
  induction a generalizing b with
  | nil => simp [sharedPrefix_nil_left]
  | cons x a ih =>
    cases b with
    | nil => simp [sharedPrefix_nil_right]
    | cons y b =>
      rw [sharedPrefix_cons]
      split
      · exact List.nil_prefix
      · rename_i h
        have hxy : x = y := by simpa using h
        subst hxy
        exact (List.prefix_cons_inj x).2 (ih b)

theorem sharedPrefix_append (c a b : Str) :
    sharedPrefix (c ++ a) (c ++ b) = c ++ sharedPrefix a b := by
  induction c with
  | nil => rfl
  | cons x c ih => simp [sharedPrefix_cons, ih]

theorem sharedPrefix_self (a : Str) : sharedPrefix a a = a := by
  have := sharedPrefix_append a [] []
  simpa [sharedPrefix_nil_left] using this

theorem sharedPrefix_comm (a b : Str) : sharedPrefix a b = sharedPrefix b a := by
  induction a generalizing b with
  | nil => simp [sharedPrefix_nil_left, sharedPrefix_nil_right]
  | cons x a ih =>
    cases b with
    | nil => simp [sharedPrefix_nil_left, sharedPrefix_nil_right]
    | cons y b =>
      rw [sharedPrefix_cons, sharedPrefix_cons]
      by_cases h : x = y
      · subst h; simp [ih b]
      · have h2 : ¬ y = x := fun e => h e.symm
        simp [h, h2]

/-- The strings left after the shared prefix start with different bytes. -/
theorem sharedPrefix_drop (a b : Str) :
    sharedPrefix (a.drop (sharedPrefix a b).length) (b.drop (sharedPrefix a b).length) = [] := by
  induction a generalizing b with
  | nil => simp [sharedPrefix_nil_left]
  | cons x a ih =>
    cases b with
    | nil => simp [sharedPrefix_nil_right]
    | cons y b =>
      rw [sharedPrefix_cons]
      by_cases h : x = y
      · subst h; simpa using ih b
      · simp [h, sharedPrefix_cons]

theorem sharedPrefix_append_drop_left (a b : Str) :
    sharedPrefix a b ++ a.drop (sharedPrefix a b).length = a := by
  exact List.prefix_iff_eq_append.1 (sharedPrefix_prefix_left a b)

theorem sharedPrefix_append_drop_right (a b : Str) :
    sharedPrefix a b ++ b.drop (sharedPrefix a b).length = b := by
  exact List.prefix_iff_eq_append.1 (sharedPrefix_prefix_right a b)

theorem sharedPrefix_eq_left_iff (a b : Str) : a = sharedPrefix a b ↔ a <+: b := by
  constructor
  · intro h; rw [h]; exact sharedPrefix_prefix_right a b
  · rintro ⟨t, rfl⟩
    have := sharedPrefix_append a [] t
    simpa [sharedPrefix_nil_left] using this.symm

theorem sharedPrefix_eq_right_iff (a b : Str) : sharedPrefix a b = b ↔ b <+: a := by
  rw [sharedPrefix_comm, eq_comm]; exact sharedPrefix_eq_left_iff b a

/-- Induction over a children slice: the empty slice, and a slice whose first
edge has children `st` and whose other edges are `rest`. -/
theorem subtree_induction {Q : subtree → Prop} (hnil : Q [])
    (hcons : ∀ label isFinal st rest, Q st → Q rest → Q (edge.mk label isFinal st :: rest)) :
    ∀ children, Q children :=
  @edge.rec_1 (fun e => Q e.st) Q (fun _ _ _ h => h) hnil
    (fun e rest he hr => by cases e; exact hcons _ _ _ _ he hr)

theorem insertLoop_nil (str : Str) : insertLoop [] str = ([edge.mk str true []], true) := rfl

theorem insertLoop_cons (label : Str) (isFinal : Bool) (st rest : subtree) (str : Str) :
    insertLoop (edge.mk label isFinal st :: rest) str =
      if str = sharedPrefix str label then (edge.mk label true st :: rest, false)
      else if sharedPrefix str label = label then
        (edge.mk label isFinal (insertLoop st (str.drop (sharedPrefix str label).length)).1 :: rest,
          (insertLoop st (str.drop (sharedPrefix str label).length)).2)
      else if (sharedPrefix str label).length > 0 then
        (edge.mk (sharedPrefix str label) false
          [edge.mk (label.drop (sharedPrefix str label).length) isFinal st,
           edge.mk (str.drop (sharedPrefix str label).length) true []] :: rest, true)
      else
        (edge.mk label isFinal st :: (insertLoop rest str).1, (insertLoop rest str).2) := by
  rw [insertLoop, insertStep]
  by_cases h1 : str = sharedPrefix str label
  · simp only [if_pos h1]
  · by_cases h2 : sharedPrefix str label = label
    · simp only [if_neg h1, if_pos h2]
    · by_cases h3 : (sharedPrefix str label).length > 0
      · simp only [if_neg h1, if_neg h2, if_pos h3]; rfl
      · simp only [if_neg h1, if_neg h2, if_neg h3]

theorem drop_sharedPrefix_ne_nil {a b : Str} (h : ¬ a = sharedPrefix a b) :
    a.drop (sharedPrefix a b).length ≠ [] := by
  intro hd
  apply h
  have := sharedPrefix_append_drop_left a b
  rw [hd, List.append_nil] at this
  exact this.symm

theorem drop_sharedPrefix_ne_nil_right {a b : Str} (h : ¬ sharedPrefix a b = b) :
    b.drop (sharedPrefix a b).length ≠ [] := by
  intro hd
  apply h
  have := sharedPrefix_append_drop_right a b
  rw [hd, List.append_nil] at this
  exact this

theorem insertLoop_idem : ∀ (children : subtree) (str : Str), str ≠ [] →
    insertLoop (insertLoop children str).1 str = ((insertLoop children str).1, false) := by
  intro children
  induction children using subtree_induction with
  | hnil =>
    intro str _
    rw [insertLoop_nil, insertLoop_cons]
    simp [sharedPrefix_self]
  | hcons label isFinal st rest ihst ihrest =>
    intro str hstr
    rw [insertLoop_cons]
    by_cases h1 : str = sharedPrefix str label
    · simp only [if_pos h1]
      rw [insertLoop_cons, if_pos h1]
    · by_cases h2 : sharedPrefix str label = label
      · simp only [if_neg h1, if_pos h2]
        rw [insertLoop_cons, if_neg h1, if_pos h2]
        rw [ihst _ (drop_sharedPrefix_ne_nil h1)]
      · by_cases h3 : (sharedPrefix str label).length > 0
        · simp only [if_neg h1, if_neg h2, if_pos h3]
          have hp : sharedPrefix str (sharedPrefix str label) = sharedPrefix str label :=
            (sharedPrefix_eq_right_iff _ _).2 (sharedPrefix_prefix_left str label)
          have hs := drop_sharedPrefix_ne_nil h1
          have hl := drop_sharedPrefix_ne_nil_right h2
          have hd := sharedPrefix_drop str label
          rw [insertLoop_cons, hp, if_neg h1, if_pos rfl]
          rw [insertLoop_cons, hd]
          have e1 : ¬ (str.drop (sharedPrefix str label).length = []) := hs
          have e2 : ¬ ([] = label.drop (sharedPrefix str label).length) := fun e => hl e.symm
          rw [if_neg e1, if_neg e2, if_neg (by simp)]
          rw [insertLoop_cons, sharedPrefix_self, if_pos rfl]
        · simp only [if_neg h1, if_neg h2, if_neg h3]
          rw [insertLoop_cons, if_neg h1, if_neg h2, if_neg h3]
          rw [ihrest _ hstr]

theorem insertLoop_skip (e : edge) (rest : subtree) (str : Str) (h : insertStep e str = none) :
    insertLoop (e :: rest) str = (e :: (insertLoop rest str).1, (insertLoop rest str).2) := by
  rw [insertLoop, h]

/-- When no child takes one of the three branches, the loop ends with
`curTree.AddChild(str); return true`: the new edge is appended after all the
children. -/
theorem insertLoop_addChild (children : subtree) (str : Str)
    (h : ∀ e ∈ children, insertStep e str = none) :
    insertLoop children str = (AddChild children str, true) := by
  induction children with
  | nil => rfl
  | cons e rest ih =>
    rw [insertLoop_skip e rest str (h e (List.mem_cons_self _ _)),
      ih (fun e1 he1 => h e1 (List.mem_cons_of_mem _ he1))]
    rfl

/-! ## Reachability of the example trees -/

theorem reachable_foldl (strs : List Str) (m : Tree) (h : Reachable m) :
    Reachable (strs.foldl (fun m s => (Insert m s).1) m) := by
  induction strs generalizing m with
  | nil => exact h
  | cons s strs ih => exact ih _ (Reachable.insert m s h)

theorem reachable_build (strs : List Str) : Reachable (build strs) :=
  reachable_foldl strs New Reachable.new

/-! ## Insert: what it returns and what it stores -/

/-- C1, evaluated on the code.  `treeAb` is reachable (`Insert("ab")` on the
empty tree) and `"a"` is not empty, yet after `Insert("a")` the exact lookup
`Contains("a", false)` returns false: line 40 takes the branch
`str == shared` because `"a"` is a prefix of the label `"ab"`, marks the edge
`"ab"` final and returns without storing `"a"`. -/
theorem C1_insert_proper_prefix_not_stored :
    Reachable treeAb ∧ "a".toList ≠ [] ∧
      (Insert treeAb "a".toList).1 = treeAb ∧
      Contains (Insert treeAb "a".toList).1 "a".toList false = false :=
  ⟨reachable_build _, by decide, rfl, by decide⟩

/-- C4, evaluated on the code.  In `treeAbAc` the string `"a"` is not a
member; `Insert("a")` makes it one (the edge `a` becomes final) and still
returns false. -/
theorem C4_insert_returns_false_though_set_changed :
    Reachable treeAbAc ∧
      Contains treeAbAc "a".toList false = false ∧
      (Insert treeAbAc "a".toList).2 = false ∧
      Contains (Insert treeAbAc "a".toList).1 "a".toList false = true :=
  ⟨reachable_build _, by decide, by decide, by decide⟩

/-- C5.  For every tree `m` (reachable or not) and every string `s`: a second
`Insert(s)` right after `Insert(s)` returns false and leaves the tree exactly
as the first call left it. -/
theorem C5_insert_idempotent (m : Tree) (s : Str) :
    (Insert (Insert m s).1 s).2 = false ∧ (Insert (Insert m s).1 s).1 = (Insert m s).1 := by
  by_cases hs : s.length = 0
  · simp [Insert, hs]
  · have hne : s ≠ [] := fun h => hs (by simp [h])
    have h := insertLoop_idem m.root s hne
    simp only [Insert, if_neg hs]
    rw [h]
    exact ⟨rfl, rfl⟩

/-! ## Remove: unfolding and the exact removal of a non-final edge -/

theorem removeLoop_nil (parent : Option (Str × Bool)) (before : subtree) (str : Str)
    (pfx : Bool) : removeLoop parent before [] str pfx = ⟨parent, before, false⟩ := rfl

theorem removeLoop_cons (parent : Option (Str × Bool)) (before : subtree) (e : edge)
    (rest : subtree) (str : Str) (pfx : Bool) :
    removeLoop parent before (e :: rest) str pfx =
      if str = e.label then remove parent before e rest pfx
      else if sharedPrefix str e.label = e.label then
        ⟨parent, before ++ (removeInto e (str.drop (sharedPrefix str e.label).length) pfx).1 :: rest,
          (removeInto e (str.drop (sharedPrefix str e.label).length) pfx).2⟩
      else if pfx && sharedPrefix str e.label = str then remove parent before e rest pfx
      else removeLoop parent (before ++ [e]) rest str pfx := by
  rw [removeLoop]

theorem removeInto_mk (label : Str) (isFinal : Bool) (st : subtree) (str : Str) (pfx : Bool) :
    removeInto (edge.mk label isFinal st) str pfx =
      match (removeLoop (some (label, isFinal)) [] st str pfx).parent with
      | some p => (edge.mk p.1 p.2 (removeLoop (some (label, isFinal)) [] st str pfx).children,
          (removeLoop (some (label, isFinal)) [] st str pfx).ret)
      | none => (edge.mk label isFinal (removeLoop (some (label, isFinal)) [] st str pfx).children,
          (removeLoop (some (label, isFinal)) [] st str pfx).ret) := by
  rw [removeInto]

theorem descentLoop_cons (e : edge) (rest : subtree) (str : Str) :
    descentLoop (e :: rest) str =
      if str = e.label then some e
      else if sharedPrefix str e.label = e.label then
        descentLoop e.st (str.drop (sharedPrefix str e.label).length)
      else descentLoop rest str := by
  cases e with
  | mk l f st => rw [descentLoop, descentInto]; rfl

/-- When the descent of an exact removal ends on a non-final edge, the loop
writes nothing and returns false. -/
theorem removeLoop_nonfinal : ∀ (todo : subtree) (parent : Option (Str × Bool))
    (before : subtree) (str : Str) (e : edge),
    descentLoop todo str = some e → e.isFinal = false →
    removeLoop parent before todo str false = ⟨parent, before ++ todo, false⟩ := by
  intro todo
  induction todo using subtree_induction with
  | hnil =>
    intro parent before str e h _
    simp [descentLoop] at h
  | hcons label isFinal st rest ihst ihrest =>
    intro parent before str e h hf
    rw [descentLoop_cons] at h
    rw [removeLoop_cons]
    simp only [edge.label, edge.st] at h ⊢
    by_cases h1 : str = label
    · rw [if_pos h1] at h
      rw [if_pos h1]
      have he : edge.mk label isFinal st = e := by simpa using h
      subst he
      have hf2 : isFinal = false := hf
      subst hf2
      simp [remove, edge.isFinal]
    · rw [if_neg h1] at h
      rw [if_neg h1]
      by_cases h2 : sharedPrefix str label = label
      · rw [if_pos h2] at h
        rw [if_pos h2, removeInto_mk, ihst _ _ _ _ h hf]
        simp
      · rw [if_neg h2] at h
        rw [if_neg h2]
        simp only [Bool.false_and, Bool.false_eq_true, if_false]
        rw [ihrest _ _ _ _ h hf]
        simp

/-- C10.  For every tree `m` and string `s`: when the descent of
`Remove(s, false)` ends on an edge `e` (the labels on the way spell `s`) and
`e` is not final, `Remove(s, false)` returns false and the tree afterwards is
the tree before, edge for edge. -/
theorem C10_remove_exact_branch_point_noop (m : Tree) (s : Str) (e : edge)
    (hd : descentLoop m.root s = some e) (hf : e.isFinal = false) :
    Remove m s false = (m, false) := by
  by_cases hs : s.length = 0
  · simp [Remove, hs]
  · by_cases hr : m.root.length = 0
    · simp [Remove, hs, hr]
    · simp only [Remove, if_neg hs, if_neg hr]
      rw [removeLoop_nonfinal m.root none [] s e hd hf]
      rfl

/-- C10 at the tree of `TestRadixRemove`: the descent of `Remove("foo", false)`
ends on the non-final edge `foo`. -/
theorem C10_remove_exact_branch_point_noop_witness :
    descentLoop treeFoobarFool.root "foo".toList
        = some (edge.mk "foo".toList false
            [edge.mk "bar".toList true [], edge.mk "l".toList true []]) ∧
      Remove treeFoobarFool "foo".toList false = (treeFoobarFool, false) :=
  ⟨rfl, C10_remove_exact_branch_point_noop treeFoobarFool "foo".toList _ rfl rfl⟩

/-! ## Prefix lookup on an edge that no member passes through -/

theorem treeDeadEdge_eq : treeDeadEdge = ⟨[edge.mk "a".toList false []]⟩ := rfl

/-- C3, evaluated on the code.  `treeDeadEdge` is reachable; in it
`Contains("a", true)` returns true although no string that starts with `"a"`
is a member. -/
theorem C3_prefix_lookup_true_without_member :
    Reachable treeDeadEdge ∧ "a".toList ≠ [] ∧
      Contains treeDeadEdge "a".toList true = true ∧
      ∀ t : Str, "a".toList <+: t → Contains treeDeadEdge t false = false := by
  refine ⟨?_, by decide, by decide, ?_⟩
  · exact Reachable.remove _ _ _ (Reachable.remove _ _ _ (reachable_build _))
  · rintro t ⟨r, rfl⟩
    rw [treeDeadEdge_eq]
    cases r with
    | nil => decide
    | cons c r =>
      simp [Contains, containsLoop, containsStep, sharedPrefix]

/-! ## Strings that start with the same byte -/

theorem sharedPrefix_eq_nil_iff (a b : Str) :
    sharedPrefix a b = [] ↔ a = [] ∨ b = [] ∨ a.head? ≠ b.head? := by
  cases a with
  | nil => simp [sharedPrefix_nil_left]
  | cons x a =>
    cases b with
    | nil => simp [sharedPrefix_nil_right]
    | cons y b =>
      rw [sharedPrefix_cons]
      by_cases h : x = y <;> simp [h]

theorem sharedPrefix_length_eq_zero_iff (a b : Str) :
    (sharedPrefix a b).length = 0 ↔ sharedPrefix a b = [] := List.length_eq_zero

theorem head?_eq_of_starts {p s : Str} (h : p <+: s) (hp : p ≠ []) : s.head? = p.head? := by
  obtain ⟨r, rfl⟩ := h
  cases p with
  | nil => exact absurd rfl hp
  | cons x p => rfl

/-- A prefix of `l` shares nothing with `x` when `l` shares nothing with `x`. -/
theorem sharedPrefix_nil_of_shorter {x p l : Str} (h : p <+: l)
    (hx : sharedPrefix x l = []) : sharedPrefix x p = [] := by
  by_cases hp : p = []
  · subst hp; exact sharedPrefix_nil_right x
  · rw [sharedPrefix_eq_nil_iff] at hx ⊢
    have hh := head?_eq_of_starts h hp
    rcases hx with hx | hx | hx
    · exact Or.inl hx
    · subst hx; exact absurd (List.prefix_nil.1 h) hp
    · exact Or.inr (Or.inr (by rw [← hh]; exact hx))

/-- An extension of the non-empty `l` shares nothing with `x` when `l` shares
nothing with `x`. -/
theorem sharedPrefix_nil_of_extends {x l l1 : Str} (h : l <+: l1) (hl : l ≠ [])
    (hx : sharedPrefix x l = []) : sharedPrefix x l1 = [] := by
  rw [sharedPrefix_eq_nil_iff] at hx ⊢
  have hh := head?_eq_of_starts h hl
  rcases hx with hx | hx | hx
  · exact Or.inl hx
  · exact absurd hx hl
  · exact Or.inr (Or.inr (by rw [hh]; exact hx))

/-- Two non-empty prefixes of one string share their first byte. -/
theorem sharedPrefix_ne_nil_of_prefixes {a b t : Str} (ha : a <+: t) (hb : b <+: t)
    (hane : a ≠ []) (hbne : b ≠ []) : sharedPrefix a b ≠ [] := by
  rw [Ne, sharedPrefix_eq_nil_iff]
  have h1 := head?_eq_of_starts ha hane
  have h2 := head?_eq_of_starts hb hbne
  rintro (h | h | h)
  · exact hane h
  · exact hbne h
  · exact h (by rw [← h1, ← h2])

/-- Sharing the first byte is transitive. -/
theorem sharedPrefix_ne_nil_trans {a b c : Str} (hab : sharedPrefix a b ≠ [])
    (hbc : sharedPrefix b c ≠ []) : sharedPrefix a c ≠ [] := by
  rw [Ne, sharedPrefix_eq_nil_iff] at hab hbc ⊢
  push_neg at hab hbc ⊢
  exact ⟨hab.1, hbc.2.1, hab.2.2.trans hbc.2.2⟩

theorem sharedPrefix_ne_nil_symm {a b : Str} (h : sharedPrefix a b ≠ []) :
    sharedPrefix b a ≠ [] := by
  rw [sharedPrefix_comm]; exact h

theorem sharedPrefix_ne_nil_of_starts {p s : Str} (h : p <+: s) (hp : p ≠ []) :
    sharedPrefix s p ≠ [] := by
  rw [(sharedPrefix_eq_right_iff s p).2 h]; exact hp

/-! ## Membership: unfolding along the first edge of the path -/

theorem spelled_cons (e : edge) (p : List edge) : spelled (e :: p) = e.label ++ spelled p := by
  simp [spelled]

theorem isPath_ne_nil {children : subtree} {p : List edge} (h : IsPath children p) : p ≠ [] := by
  cases p with
  | nil => exact absurd h (by simp [IsPath])
  | cons e p => simp

theorem getLast?_cons_of_ne_nil (e : edge) {p : List edge} (h : p ≠ []) :
    (e :: p).getLast? = p.getLast? := by
  cases p with
  | nil => exact absurd rfl h
  | cons x p => exact List.getLast?_cons_cons

theorem member_iff (children : subtree) (t : Str) :
    Member children t ↔ ∃ e ∈ children, Through e t := by
  constructor
  · rintro ⟨p, hp, hs, l, hl, hf⟩
    cases p with
    | nil => exact absurd hp (by simp [IsPath])
    | cons e p =>
      obtain ⟨he, hp⟩ := hp
      refine ⟨e, he, ?_⟩
      rcases hp with hp | hp
      · subst hp
        left
        simp only [List.getLast?_singleton, Option.some.injEq] at hl
        subst hl
        refine ⟨hf, ?_⟩
        rw [← hs, spelled_cons]; simp [spelled]
      · right
        have hne := isPath_ne_nil hp
        refine ⟨spelled p, ⟨p, hp, rfl, l, ?_, hf⟩, ?_⟩
        · rw [← hl]; exact (getLast?_cons_of_ne_nil e hne).symm
        · rw [← hs, spelled_cons]
  · rintro ⟨e, he, h⟩
    rcases h with ⟨hf, ht⟩ | ⟨s, ⟨p, hp, hs, l, hl, hf⟩, ht⟩
    · refine ⟨[e], ⟨he, Or.inl rfl⟩, ?_, e, rfl, hf⟩
      rw [ht, spelled_cons]; simp [spelled]
    · have hne := isPath_ne_nil hp
      refine ⟨e :: p, ⟨he, Or.inr hp⟩, ?_, l, ?_, hf⟩
      · rw [spelled_cons, hs, ht]
      · rw [← hl]; exact getLast?_cons_of_ne_nil e hne

theorem member_nil (t : Str) : ¬ Member [] t := by
  rw [member_iff]; simp

theorem member_cons (e : edge) (rest : subtree) (t : Str) :
    Member (e :: rest) t ↔ Through e t ∨ Member rest t := by
  simp only [member_iff, List.mem_cons, exists_eq_or_imp]

theorem member_append (a b : subtree) (t : Str) :
    Member (a ++ b) t ↔ Member a t ∨ Member b t := by
  simp only [member_iff, List.mem_append, or_and_right, exists_or]

theorem member_singleton (e : edge) (t : Str) : Member [e] t ↔ Through e t := by
  rw [member_cons]; simp [member_nil]

theorem through_mk (l : Str) (f : Bool) (st : subtree) (t : Str) :
    Through (edge.mk l f st) t ↔ (f = true ∧ t = l) ∨ ∃ s, Member st s ∧ t = l ++ s := Iff.rfl

theorem through_starts {e : edge} {t : Str} (h : Through e t) : e.label <+: t := by
  rcases h with ⟨_, ht⟩ | ⟨s, _, ht⟩
  · rw [ht]
  · rw [ht]; exact List.prefix_append _ _

/-! ## The descent of an exact removal follows a path that spells the string -/

theorem isPath_mono {a b : subtree} (h : ∀ e ∈ a, e ∈ b) {p : List edge} (hp : IsPath a p) :
    IsPath b p := by
  cases p with
  | nil => exact absurd hp (by simp [IsPath])
  | cons e p => exact ⟨h e hp.1, hp.2⟩

theorem descentLoop_spells : ∀ (children : subtree) (str : Str) (e : edge),
    descentLoop children str = some e →
    ∃ p : List edge, IsPath children p ∧ spelled p = str ∧ p.getLast? = some e := by
  intro children
  induction children using subtree_induction with
  | hnil =>
    intro str e h
    simp [descentLoop] at h
  | hcons l f st rest ihst ihrest =>
    intro str e h
    rw [descentLoop_cons] at h
    simp only [edge.label_mk, edge.st_mk] at h
    by_cases h1 : str = l
    · rw [if_pos h1] at h
      refine ⟨[edge.mk l f st], ⟨List.mem_cons_self _ _, Or.inl rfl⟩, ?_, ?_⟩
      · rw [spelled_cons, h1]; simp [spelled]
      · simpa using h
    · rw [if_neg h1] at h
      by_cases h2 : sharedPrefix str l = l
      · rw [if_pos h2] at h
        obtain ⟨p, hp, hs, hl⟩ := ihst _ e h
        refine ⟨edge.mk l f st :: p, ⟨List.mem_cons_self _ _, Or.inr hp⟩, ?_, ?_⟩
        · rw [spelled_cons, hs, edge.label_mk]
          have := sharedPrefix_append_drop_left str l
          rw [h2] at this
          rw [h2]; exact this
        · rw [getLast?_cons_of_ne_nil _ (isPath_ne_nil hp)]; exact hl
      · rw [if_neg h2] at h
        obtain ⟨p, hp, hs, hl⟩ := ihrest str e h
        exact ⟨p, isPath_mono (fun x hx => List.mem_cons_of_mem _ hx) hp, hs, hl⟩

/-! ## The invariant, unfolded -/

theorem edgeInv_mk (l : Str) (f : Bool) (st : subtree) :
    edgeInv (edge.mk l f st) ↔ l ≠ [] ∧ subtreeInv st := by
  rw [edgeInv]

theorem edgeInv_iff (e : edge) : edgeInv e ↔ e.label ≠ [] ∧ subtreeInv e.st := by
  cases e with
  | mk l f st => exact edgeInv_mk l f st

theorem subtreeInv_nil : subtreeInv [] := by
  rw [subtreeInv]; trivial

theorem subtreeInv_cons (e : edge) (rest : subtree) :
    subtreeInv (e :: rest) ↔
      edgeInv e ∧ (∀ e1 ∈ rest, sharedPrefix e.label e1.label = []) ∧ subtreeInv rest := by
  rw [subtreeInv]

theorem subtreeInv_iff (children : subtree) :
    subtreeInv children ↔ (∀ e ∈ children, edgeInv e) ∧
      children.Pairwise (fun a b => sharedPrefix a.label b.label = []) := by
  induction children with
  | nil => simp [subtreeInv_nil]
  | cons e rest ih =>
    rw [subtreeInv_cons, ih, List.pairwise_cons]
    simp only [List.mem_cons, forall_eq_or_imp]
    tauto

theorem subtreeInv_append (a b : subtree) :
    subtreeInv (a ++ b) ↔ subtreeInv a ∧ subtreeInv b ∧
      ∀ x ∈ a, ∀ y ∈ b, sharedPrefix x.label y.label = [] := by
  simp only [subtreeInv_iff, List.pairwise_append, List.mem_append]
  constructor
  · rintro ⟨h1, h2, h3, h4⟩
    exact ⟨⟨fun e he => h1 e (Or.inl he), h2⟩, ⟨fun e he => h1 e (Or.inr he), h3⟩, h4⟩
  · rintro ⟨⟨h1, h2⟩, ⟨h3, h4⟩, h5⟩
    exact ⟨fun e he => he.elim (h1 e) (h3 e), h2, h4, h5⟩

theorem subtreeInv_singleton (e : edge) : subtreeInv [e] ↔ edgeInv e := by
  rw [subtreeInv_cons]; simp [subtreeInv_nil]

/-- Under the invariant every member is a non-empty string. -/
theorem member_ne_nil {children : subtree} (hinv : subtreeInv children) {t : Str}
    (h : Member children t) : t ≠ [] := by
  rw [member_iff] at h
  obtain ⟨e, he, ht⟩ := h
  have hl := ((edgeInv_iff e).1 (((subtreeInv_iff children).1 hinv).1 e he)).1
  have hp := through_starts ht
  intro h0
  subst h0
  exact hl (List.prefix_nil.1 hp)

/-- Under the invariant no member of `rest` starts like the label of a sibling
of the edges of `rest`. -/
theorem not_member_of_disjoint {rest : subtree} (hinv : subtreeInv rest) {l t : Str}
    (hd : ∀ e1 ∈ rest, sharedPrefix l e1.label = []) (ht : sharedPrefix t l ≠ []) :
    ¬ Member rest t := by
  intro h
  rw [member_iff] at h
  obtain ⟨e, he, hthr⟩ := h
  have hl := ((edgeInv_iff e).1 (((subtreeInv_iff rest).1 hinv).1 e he)).1
  have h1 : sharedPrefix t e.label ≠ [] := sharedPrefix_ne_nil_of_starts (through_starts hthr) hl
  exact sharedPrefix_ne_nil_trans (sharedPrefix_ne_nil_symm ht) h1 (hd e he)

/-! ## Contains: unfolding, and exact lookup against membership -/

theorem containsLoop_nil (str : Str) (pfx : Bool) : containsLoop [] str pfx = false := rfl

theorem containsLoop_cons (label : Str) (isFinal : Bool) (st rest : subtree) (str : Str)
    (pfx : Bool) :
    containsLoop (edge.mk label isFinal st :: rest) str pfx =
      if str = label then (pfx || isFinal)
      else if (sharedPrefix str label).length = 0 then containsLoop rest str pfx
      else if sharedPrefix str label = label then
        containsLoop st (str.drop (sharedPrefix str label).length) pfx
      else if pfx && sharedPrefix str label = str then true
      else false := by
  rw [containsLoop, containsStep]
  by_cases h1 : str = label
  · simp only [if_pos h1]
  · by_cases h2 : (sharedPrefix str label).length = 0
    · simp only [if_neg h1, if_pos h2]
    · by_cases h3 : sharedPrefix str label = label
      · simp only [if_neg h1, if_neg h2, if_pos h3]
      · by_cases h4 : (pfx && sharedPrefix str label = str) = true
        · simp only [if_neg h1, if_neg h2, if_neg h3, if_pos h4]
        · simp only [if_neg h1, if_neg h2, if_neg h3, if_neg h4]

/-- Under the invariant the exact lookup finds exactly the members. -/
theorem containsLoop_iff_member : ∀ (children : subtree), subtreeInv children →
    ∀ str : Str, str ≠ [] → (containsLoop children str false = true ↔ Member children str) := by
  intro children
  induction children using subtree_induction with
  | hnil =>
    intro _ str _
    simp [containsLoop_nil, member_nil]
  | hcons label isFinal st rest ihst ihrest =>
    intro hinv str hstr
    rw [subtreeInv_cons, edgeInv_mk] at hinv
    obtain ⟨⟨hl, hst⟩, hdis, hrest⟩ := hinv
    simp only [edge.label] at hdis
    rw [containsLoop_cons, member_cons, through_mk]
    by_cases h1 : str = label
    · subst h1
      rw [if_pos rfl]
      have hno : ¬ Member rest str :=
        not_member_of_disjoint hrest hdis (by rw [sharedPrefix_self]; exact hstr)
      constructor
      · intro h; exact Or.inl (Or.inl ⟨by simpa using h, rfl⟩)
      · rintro ((⟨hf, _⟩ | ⟨s, hs, he⟩) | h)
        · simpa using hf
        · have : s = [] := by simpa using he.symm
          subst this
          exact absurd rfl (member_ne_nil hst hs)
        · exact absurd h hno
    · rw [if_neg h1]
      by_cases h2 : (sharedPrefix str label).length = 0
      · rw [if_pos h2, ihrest hrest str hstr]
        have h2n : sharedPrefix str label = [] := (sharedPrefix_length_eq_zero_iff _ _).1 h2
        constructor
        · intro h; exact Or.inr h
        · rintro ((⟨_, he⟩ | ⟨s, _, he⟩) | h)
          · exact absurd he h1
          · exfalso
            have hp : label <+: str := by rw [he]; exact List.prefix_append _ _
            exact sharedPrefix_ne_nil_of_starts hp hl h2n
          · exact h
      · rw [if_neg h2]
        have h2n : sharedPrefix str label ≠ [] :=
          fun h => h2 ((sharedPrefix_length_eq_zero_iff _ _).2 h)
        have hno : ¬ Member rest str := not_member_of_disjoint hrest hdis h2n
        by_cases h3 : sharedPrefix str label = label
        · rw [if_pos h3]
          have hne : str.drop (sharedPrefix str label).length ≠ [] :=
            drop_sharedPrefix_ne_nil (fun h => h1 (h.trans h3))
          rw [ihst hst _ hne]
          have hsplit : label ++ str.drop label.length = str := by
            have := sharedPrefix_append_drop_left str label
            rw [h3] at this; exact this
          rw [h3]
          constructor
          · intro h; exact Or.inl (Or.inr ⟨_, h, hsplit.symm⟩)
          · rintro ((⟨_, he⟩ | ⟨s, hs, he⟩) | h)
            · exact absurd he h1
            · have : str.drop label.length = s := by rw [he]; simp
              rw [this]; exact hs
            · exact absurd h hno
        · rw [if_neg h3]
          simp only [Bool.false_and, Bool.false_eq_true, if_false, false_iff]
          rintro ((⟨_, he⟩ | ⟨s, _, he⟩) | h)
          · exact h1 he
          · apply h3
            rw [sharedPrefix_eq_right_iff, he]
            exact List.prefix_append _ _
          · exact hno h

/-! ## Insert keeps the invariant -/

/-- A string that shares nothing with the inserted string nor with any label of
a slice shares nothing with any label of the slice after the insertion. -/
theorem insertLoop_disjoint (children : subtree) (x str : Str)
    (hx : sharedPrefix x str = [])
    (hd : ∀ e0 ∈ children, sharedPrefix x e0.label = []) :
    ∀ e1 ∈ (insertLoop children str).1, sharedPrefix x e1.label = [] := by
  induction children with
  | nil =>
    intro e1 he1
    rw [insertLoop_nil] at he1
    simp only [List.mem_singleton] at he1
    subst he1
    exact hx
  | cons e rest ih =>
    cases e with
    | mk label isFinal st =>
      have hl : sharedPrefix x label = [] := hd _ (List.mem_cons_self _ _)
      have hrest : ∀ e0 ∈ rest, sharedPrefix x e0.label = [] :=
        fun e0 he0 => hd e0 (List.mem_cons_of_mem _ he0)
      intro e1 he1
      rw [insertLoop_cons] at he1
      by_cases h1 : str = sharedPrefix str label
      · rw [if_pos h1] at he1
        rcases List.mem_cons.1 he1 with h | h
        · subst h; exact hl
        · exact hrest e1 h
      · rw [if_neg h1] at he1
        by_cases h2 : sharedPrefix str label = label
        · rw [if_pos h2] at he1
          rcases List.mem_cons.1 he1 with h | h
          · subst h; exact hl
          · exact hrest e1 h
        · rw [if_neg h2] at he1
          by_cases h3 : (sharedPrefix str label).length > 0
          · rw [if_pos h3] at he1
            rcases List.mem_cons.1 he1 with h | h
            · subst h
              exact sharedPrefix_nil_of_shorter (sharedPrefix_prefix_right str label) hl
            · exact hrest e1 h
          · rw [if_neg h3] at he1
            rcases List.mem_cons.1 he1 with h | h
            · subst h; exact hl
            · exact ih hrest e1 h

theorem insertLoop_inv : ∀ (children : subtree), subtreeInv children →
    ∀ str : Str, str ≠ [] → subtreeInv (insertLoop children str).1 := by
  intro children
  induction children using subtree_induction with
  | hnil =>
    intro _ str hstr
    rw [insertLoop_nil, subtreeInv_singleton, edgeInv_mk]
    exact ⟨hstr, subtreeInv_nil⟩
  | hcons label isFinal st rest ihst ihrest =>
    intro hinv str hstr
    rw [subtreeInv_cons, edgeInv_mk] at hinv
    obtain ⟨⟨hl, hst⟩, hdis, hrest⟩ := hinv
    simp only [edge.label] at hdis
    rw [insertLoop_cons]
    by_cases h1 : str = sharedPrefix str label
    · rw [if_pos h1, subtreeInv_cons, edgeInv_mk]
      exact ⟨⟨hl, hst⟩, hdis, hrest⟩
    · rw [if_neg h1]
      by_cases h2 : sharedPrefix str label = label
      · rw [if_pos h2, subtreeInv_cons, edgeInv_mk]
        exact ⟨⟨hl, ihst hst _ (drop_sharedPrefix_ne_nil h1)⟩, hdis, hrest⟩
      · rw [if_neg h2]
        by_cases h3 : (sharedPrefix str label).length > 0
        · rw [if_pos h3, subtreeInv_cons, edgeInv_mk]
          refine ⟨⟨fun h => by simp [h] at h3, ?_⟩, ?_, hrest⟩
          · rw [subtreeInv_cons, edgeInv_mk, subtreeInv_singleton, edgeInv_mk]
            refine ⟨⟨drop_sharedPrefix_ne_nil_right h2, hst⟩, ?_,
              drop_sharedPrefix_ne_nil h1, subtreeInv_nil⟩
            intro e1 he1
            simp only [List.mem_singleton] at he1
            subst he1
            simp only [edge.label]
            rw [sharedPrefix_comm]
            exact sharedPrefix_drop str label
          · intro e1 he1
            simp only [edge.label]
            have := hdis e1 he1
            rw [sharedPrefix_comm] at this ⊢
            exact sharedPrefix_nil_of_shorter (sharedPrefix_prefix_right str label) this
        · rw [if_neg h3, subtreeInv_cons, edgeInv_mk]
          refine ⟨⟨hl, hst⟩, ?_, ihrest hrest str hstr⟩
          simp only [edge.label]
          have h3n : sharedPrefix str label = [] := by
            rw [← sharedPrefix_length_eq_zero_iff]; omega
          apply insertLoop_disjoint rest label str
          · rw [sharedPrefix_comm]; exact h3n
          · exact hdis

/-! ## Removal: the strings aimed at -/

theorem hit_starts {pfx : Bool} {s t : Str} (h : Hit pfx s t) : s <+: t := by
  unfold Hit at h
  split at h
  · exact h
  · rw [h]

theorem hit_append (pfx : Bool) (l s t : Str) : Hit pfx (l ++ s) (l ++ t) ↔ Hit pfx s t := by
  unfold Hit
  split
  · exact List.prefix_append_right_inj l
  · exact List.append_right_inj l

theorem not_hit_parent (pfx : Bool) (l : Str) {s : Str} (hs : s ≠ []) :
    ¬ Hit pfx (l ++ s) l := by
  intro h
  have hp := hit_starts h
  have hlen := hp.length_le
  simp only [List.length_append] at hlen
  have : s.length = 0 := by omega
  exact hs (List.length_eq_zero.1 this)

theorem hit_of_prefix_through {s : Str} {e : edge} {t : Str} (hs : s <+: e.label)
    (ht : Through e t) : Hit true s t := by
  unfold Hit
  simp only [if_true]
  exact hs.trans (through_starts ht)

/-! ## Removal: one slice with one edge singled out -/

theorem member_mid (before : subtree) (e : edge) (after : subtree) (t : Str) :
    Member (before ++ e :: after) t ↔ Through e t ∨ Member (before ++ after) t := by
  simp only [member_append, member_cons]
  tauto

theorem subtreeInv_mid (before : subtree) (e : edge) (after : subtree) :
    subtreeInv (before ++ e :: after) ↔
      subtreeInv (before ++ after) ∧ edgeInv e ∧
        ∀ e1 ∈ before ++ after, sharedPrefix e.label e1.label = [] := by
  simp only [subtreeInv_append, subtreeInv_cons, List.mem_append, List.mem_cons]
  constructor
  · rintro ⟨h1, ⟨h2, h3, h4⟩, h5⟩
    refine ⟨⟨h1, h4, fun x hx y hy => h5 x hx y (Or.inr hy)⟩, h2, ?_⟩
    rintro e1 (he1 | he1)
    · rw [sharedPrefix_comm]; exact h5 e1 he1 e (Or.inl rfl)
    · exact h3 e1 he1
  · rintro ⟨⟨h1, h4, h5⟩, h2, h3⟩
    refine ⟨h1, ⟨h2, fun e1 he1 => h3 e1 (Or.inr he1), h4⟩, ?_⟩
    rintro x hx y (hy | hy)
    · subst hy; rw [sharedPrefix_comm]; exact h3 x (Or.inl hx)
    · exact h5 x hx y hy

/-- Under the invariant, a removal that aims at strings starting like the
label of `e` aims at no member that passes through a sibling of `e`. -/
theorem others_not_hit {before : subtree} {e : edge} {after : subtree}
    (hinv : subtreeInv (before ++ e :: after)) {pfx : Bool} {str : Str}
    (hsh : sharedPrefix str e.label ≠ []) {t : Str} (ht : Member (before ++ after) t) :
    ¬ Hit pfx str t := by
  intro hhit
  rw [subtreeInv_mid] at hinv
  obtain ⟨hoth, _, hdis⟩ := hinv
  have hstr : str ≠ [] := by
    intro h; subst h; exact hsh (sharedPrefix_nil_left _)
  have h1 : sharedPrefix t str ≠ [] := sharedPrefix_ne_nil_of_starts (hit_starts hhit) hstr
  exact not_member_of_disjoint hoth hdis (sharedPrefix_ne_nil_trans h1 hsh) ht

/-! ## Removal: from the children to the parent edge -/

theorem subtreeInv_assemble (parent : Option (Str × Bool)) (children : subtree) :
    subtreeInv (assemble parent children) ↔
      (∀ p, parent = some p → p.1 ≠ []) ∧ subtreeInv children := by
  cases parent with
  | none => simp [assemble]
  | some p => simp [assemble, subtreeInv_singleton, edgeInv_mk]

theorem member_assemble_some (p : Str × Bool) (children : subtree) (t : Str) :
    Member (assemble (some p) children) t ↔
      (p.2 = true ∧ t = p.1) ∨ ∃ s, Member children s ∧ t = p.1 ++ s := by
  simp only [assemble, member_singleton, through_mk]

/-- A change of the children that removes exactly the members aimed at by
`str` removes, seen from the parent, exactly the members aimed at by the
parent label followed by `str`. -/
theorem member_assemble_lift (parent : Option (Str × Bool)) {ch ch1 : subtree} {pfx : Bool}
    {str : Str} (hstr : str ≠ [])
    (h : ∀ t, Member ch1 t ↔ (Member ch t ∧ ¬ Hit pfx str t)) (t : Str) :
    Member (assemble parent ch1) t ↔
      (Member (assemble parent ch) t ∧ ¬ Hit pfx (parentLabel parent ++ str) t) := by
  cases parent with
  | none => simpa [assemble, parentLabel] using h t
  | some p =>
    simp only [member_assemble_some, parentLabel]
    constructor
    · rintro (⟨hf, ht⟩ | ⟨s, hs, ht⟩)
      · subst ht
        exact ⟨Or.inl ⟨hf, rfl⟩, not_hit_parent pfx p.1 hstr⟩
      · subst ht
        obtain ⟨hm, hn⟩ := (h s).1 hs
        exact ⟨Or.inr ⟨s, hm, rfl⟩, fun hh => hn ((hit_append pfx p.1 str s).1 hh)⟩
    · rintro ⟨(⟨hf, ht⟩ | ⟨s, hs, ht⟩), hn⟩
      · exact Or.inl ⟨hf, ht⟩
      · subst ht
        exact Or.inr ⟨s, (h s).2 ⟨hs, fun hh => hn ((hit_append pfx p.1 str s).2 hh)⟩, rfl⟩

/-- Merging a non-final edge with its only child keeps the members. -/
theorem member_assemble_merge (pl : Str) (m : edge) (t : Str) :
    Member (assemble (some (pl ++ m.label, m.isFinal)) m.st) t ↔
      Member (assemble (some (pl, false)) [m]) t := by
  simp only [member_assemble_some, member_singleton, Through]
  constructor
  · rintro (⟨hf, ht⟩ | ⟨s, hs, ht⟩)
    · exact Or.inr ⟨m.label, Or.inl ⟨hf, rfl⟩, ht⟩
    · exact Or.inr ⟨m.label ++ s, Or.inr ⟨s, hs, rfl⟩, by rw [ht, List.append_assoc]⟩
  · rintro (⟨hf, _⟩ | ⟨s1, (⟨hf, hs1⟩ | ⟨s, hs, hs1⟩), ht⟩)
    · exact absurd hf (by simp)
    · subst hs1; exact Or.inl ⟨hf, ht⟩
    · subst hs1; exact Or.inr ⟨s, hs, by rw [ht, List.append_assoc]⟩

/-- The parent is kept and its children become `ch1`. -/
theorem removalSpec_keep {parent : Option (Str × Bool)} {ch ch1 : subtree} {pfx : Bool}
    {str : Str} (ret : Bool) (hstr : str ≠ [])
    (hinv : subtreeInv (assemble parent ch)) (hinv1 : subtreeInv ch1)
    (h : ∀ t, Member ch1 t ↔ (Member ch t ∧ ¬ Hit pfx str t)) :
    RemovalSpec parent ch str pfx ⟨parent, ch1, ret⟩ := by
  refine ⟨?_, rfl, List.prefix_refl _, member_assemble_lift parent hstr h⟩
  rw [subtreeInv_assemble] at hinv ⊢
  exact ⟨hinv.1, hinv1⟩

/-- The non-final parent is merged with the only child `m` that is left. -/
theorem removalSpec_merge {pl : Str} {ch : subtree} {m : edge} {pfx : Bool}
    {str : Str} (ret : Bool) (hstr : str ≠ [])
    (hinv : subtreeInv (assemble (some (pl, false)) ch)) (hinv1 : subtreeInv [m])
    (h : ∀ t, Member [m] t ↔ (Member ch t ∧ ¬ Hit pfx str t)) :
    RemovalSpec (some (pl, false)) ch str pfx
      ⟨some (pl ++ m.label, m.isFinal), m.st, ret⟩ := by
  refine ⟨?_, rfl, ?_, ?_⟩
  · rw [subtreeInv_assemble] at hinv ⊢
    rw [subtreeInv_singleton, edgeInv_iff] at hinv1
    refine ⟨?_, hinv1.2⟩
    intro p hp
    have hpl : pl ≠ [] := hinv.1 _ rfl
    simp only [Option.some.injEq] at hp
    subst hp
    simp [hpl]
  · simp only [parentLabel]
    exact List.prefix_append _ _
  · intro t
    rw [member_assemble_merge]
    exact member_assemble_lift (some (pl, false)) hstr h t

/-! ## Removal: `remove` and the loop meet `RemovalSpec` -/

theorem remove_spec (parent : Option (Str × Bool)) (before : subtree) (e : edge)
    (after : subtree) (pfx : Bool) (str : Str)
    (hinv : subtreeInv (assemble parent (before ++ e :: after))) (hstr : str ≠ [])
    (hcase : str = e.label ∨ (pfx = true ∧ str <+: e.label)) :
    RemovalSpec parent (before ++ e :: after) str pfx (remove parent before e after pfx) := by
  have hch : subtreeInv (before ++ e :: after) := ((subtreeInv_assemble _ _).1 hinv).2
  obtain ⟨hoth, hedge, hdis⟩ := (subtreeInv_mid _ _ _).1 hch
  obtain ⟨hel, hest⟩ := (edgeInv_iff e).1 hedge
  have hpre : str <+: e.label := by
    rcases hcase with h | ⟨_, h⟩
    · rw [h]
    · exact h
  have hsh : sharedPrefix str e.label ≠ [] := by
    rw [← (sharedPrefix_eq_left_iff str e.label).2 hpre]; exact hstr
  have hexact : pfx = false → str = e.label := by
    intro hp
    rcases hcase with h | ⟨h, _⟩
    · exact h
    · rw [hp] at h; exact absurd h (by simp)
  have hnothr : ∀ s, Member e.st s → e.label ++ s ≠ e.label := by
    intro s hs h
    have : s = [] := by simpa using h
    exact member_ne_nil hest hs this
  unfold remove
  by_cases c1 : (!pfx && !e.isFinal) = true
  · rw [if_pos c1]
    simp only [Bool.and_eq_true, Bool.not_eq_true'] at c1
    obtain ⟨hp, hf⟩ := c1
    have hs := hexact hp
    apply removalSpec_keep false hstr hinv hch
    intro t
    refine ⟨fun h => ⟨h, ?_⟩, fun h => h.1⟩
    intro hhit
    have ht : t = str := by simpa [Hit, hp] using hhit
    rw [member_mid] at h
    rcases h with (⟨hfin, _⟩ | ⟨s, hs1, hts⟩) | h
    · rw [hf] at hfin; exact absurd hfin (by simp)
    · exact hnothr s hs1 (by rw [← hts, ht, hs])
    · exact others_not_hit hch hsh h hhit
  · rw [if_neg c1]
    by_cases c2 : (pfx || decide (e.st.length = 0)) = true
    · rw [if_pos c2]
      have hrm : ∀ t, Member (before ++ after) t ↔
          (Member (before ++ e :: after) t ∧ ¬ Hit pfx str t) := by
        intro t
        rw [member_mid]
        constructor
        · intro h; exact ⟨Or.inr h, others_not_hit hch hsh h⟩
        · rintro ⟨hthr | h, hn⟩
          · exfalso
            apply hn
            cases pfx with
            | true => exact hit_of_prefix_through hpre hthr
            | false =>
              have hs := hexact rfl
              simp only [Bool.false_or, decide_eq_true_eq] at c2
              have hnil : e.st = [] := List.length_eq_zero.1 c2
              rcases hthr with ⟨_, ht⟩ | ⟨s, hs1, _⟩
              · simp [Hit, ht, hs]
              · rw [hnil] at hs1; exact absurd hs1 (member_nil s)
          · exact h
      split
      · rename_i pl m hba
        rw [hba] at hrm hoth
        exact removalSpec_merge true hstr hinv hoth hrm
      · exact removalSpec_keep true hstr hinv hoth hrm
    · rw [if_neg c2]
      simp only [Bool.or_eq_true, decide_eq_true_eq, not_or] at c2
      obtain ⟨hp, _⟩ := c2
      have hp : pfx = false := by simpa using hp
      have hs := hexact hp
      have hfin : e.isFinal = true := by
        cases hf : e.isFinal with
        | true => rfl
        | false => exact absurd (by simp [hp, hf]) c1
      apply removalSpec_keep true hstr hinv
      · rw [subtreeInv_mid]
        exact ⟨hoth, (edgeInv_mk _ _ _).2 ⟨hel, hest⟩, hdis⟩
      · intro t
        rw [member_mid, member_mid, through_mk]
        constructor
        · rintro ((⟨hff, _⟩ | ⟨s, hs1, hts⟩) | h)
          · exact absurd hff (by simp)
          · refine ⟨Or.inl (Or.inr ⟨s, hs1, hts⟩), ?_⟩
            intro hhit
            have ht : t = str := by simpa [Hit, hp] using hhit
            exact hnothr s hs1 (by rw [← hts, ht, hs])
          · exact ⟨Or.inr h, others_not_hit hch hsh h⟩
        · rintro ⟨(⟨_, ht⟩ | ⟨s, hs1, hts⟩) | h, hn⟩
          · exact absurd (by simp [Hit, hp, ht, hs]) hn
          · exact Or.inl (Or.inr ⟨s, hs1, hts⟩)
          · exact Or.inr h

theorem removeLoop_spec : ∀ (todo : subtree) (parent : Option (Str × Bool))
    (before : subtree) (str : Str) (pfx : Bool),
    subtreeInv (assemble parent (before ++ todo)) → str ≠ [] →
    (∀ t, Member before t → ¬ Hit pfx str t) →
    RemovalSpec parent (before ++ todo) str pfx (removeLoop parent before todo str pfx) := by
  intro todo
  induction todo using subtree_induction with
  | hnil =>
    intro parent before str pfx hinv hstr hbefore
    rw [removeLoop_nil]
    rw [List.append_nil] at hinv ⊢
    exact removalSpec_keep false hstr hinv ((subtreeInv_assemble _ _).1 hinv).2
      (fun t => ⟨fun h => ⟨h, hbefore t h⟩, fun h => h.1⟩)
  | hcons l f st rest ihst ihrest =>
    intro parent before str pfx hinv hstr hbefore
    have hch : subtreeInv (before ++ edge.mk l f st :: rest) :=
      ((subtreeInv_assemble _ _).1 hinv).2
    obtain ⟨hoth, hedge, hdis⟩ := (subtreeInv_mid _ _ _).1 hch
    obtain ⟨hl, hst⟩ := (edgeInv_mk l f st).1 hedge
    simp only [edge.label_mk] at hdis
    rw [removeLoop_cons]
    simp only [edge.label_mk]
    by_cases h1 : str = l
    · rw [if_pos h1]
      exact remove_spec parent before _ rest pfx str hinv hstr (Or.inl h1)
    · rw [if_neg h1]
      by_cases h2 : sharedPrefix str l = l
      · rw [if_pos h2, removeInto_mk]
        simp only [h2]
        have hne : str.drop l.length ≠ [] := by
          have := drop_sharedPrefix_ne_nil (fun h : str = sharedPrefix str l => h1 (h.trans h2))
          rw [h2] at this; exact this
        have hsplit : l ++ str.drop l.length = str := by
          have := sharedPrefix_append_drop_left str l
          rw [h2] at this; exact this
        have hsh : sharedPrefix str (edge.mk l f st).label ≠ [] := by
          simp only [edge.label_mk]; rw [h2]; exact hl
        have hsub : subtreeInv (assemble (some (l, f)) ([] ++ st)) := by
          rw [subtreeInv_assemble]
          refine ⟨?_, by simpa using hst⟩
          intro p hp
          simp only [Option.some.injEq] at hp
          subst hp; exact hl
        obtain ⟨ri, rs, rp, rm⟩ := ihst (some (l, f)) [] (str.drop l.length) pfx hsub hne
          (fun t ht => absurd ht (member_nil t))
        generalize removeLoop (some (l, f)) [] st (str.drop l.length) pfx = r at ri rs rp rm
        obtain ⟨rpar, rch, rret⟩ := r
        simp only at ri rs rp rm
        cases rpar with
        | none => simp at rs
        | some p =>
          simp only [parentLabel, List.nil_append, hsplit] at rp rm
          apply removalSpec_keep rret hstr hinv
          · rw [subtreeInv_mid]
            refine ⟨hoth, ?_, ?_⟩
            · simpa [assemble, subtreeInv_singleton] using ri
            · intro e1 he1
              simp only [edge.label_mk]
              have := hdis e1 he1
              rw [sharedPrefix_comm] at this ⊢
              exact sharedPrefix_nil_of_extends rp hl this
          · intro t
            have hthr : Through (edge.mk p.1 p.2 rch) t ↔
                (Through (edge.mk l f st) t ∧ ¬ Hit pfx str t) := by
              have := rm t
              simpa only [assemble, member_singleton] using this
            rw [member_mid, member_mid, hthr]
            constructor
            · rintro (⟨h, hn⟩ | h)
              · exact ⟨Or.inl h, hn⟩
              · exact ⟨Or.inr h, others_not_hit hch hsh h⟩
            · rintro ⟨h | h, hn⟩
              · exact Or.inl ⟨h, hn⟩
              · exact Or.inr h
      · rw [if_neg h2]
        by_cases h3 : (pfx && decide (sharedPrefix str l = str)) = true
        · rw [if_pos h3]
          simp only [Bool.and_eq_true, decide_eq_true_eq] at h3
          exact remove_spec parent before _ rest pfx str hinv hstr
            (Or.inr ⟨h3.1, (sharedPrefix_eq_left_iff str l).1 h3.2.symm⟩)
        · rw [if_neg h3]
          have hassoc : (before ++ [edge.mk l f st]) ++ rest = before ++ edge.mk l f st :: rest := by
            simp
          rw [← hassoc] at hinv ⊢
          apply ihrest parent (before ++ [edge.mk l f st]) str pfx hinv hstr
          intro t ht hhit
          rw [member_append, member_singleton] at ht
          rcases ht with ht | ht
          · exact hbefore t ht hhit
          · have hlt : l <+: t := through_starts ht
            have hst : str <+: t := hit_starts hhit
            cases pfx with
            | false =>
              have : t = str := by simpa [Hit] using hhit
              rw [this] at hlt
              exact h2 ((sharedPrefix_eq_right_iff str l).2 hlt)
            | true =>
              rcases List.prefix_or_prefix_of_prefix hst hlt with h | h
              · apply h3
                simp only [Bool.true_and, decide_eq_true_eq]
                exact ((sharedPrefix_eq_left_iff str l).2 h).symm
              · exact h2 ((sharedPrefix_eq_right_iff str l).2 h)

/-! ## Removal: the value returned -/

theorem remove_ret (parent : Option (Str × Bool)) (before : subtree) (e : edge)
    (after : subtree) (pfx : Bool) :
    (remove parent before e after pfx).ret = (pfx || e.isFinal) := by
  unfold remove
  by_cases c1 : (!pfx && !e.isFinal) = true
  · rw [if_pos c1]
    simp only [Bool.and_eq_true, Bool.not_eq_true'] at c1
    simp [c1.1, c1.2]
  · rw [if_neg c1]
    have hval : (pfx || e.isFinal) = true := by
      cases pfx <;> cases hf : e.isFinal <;> simp_all
    rw [hval]
    by_cases c2 : (pfx || decide (e.st.length = 0)) = true
    · rw [if_pos c2]
      split <;> rfl
    · rw [if_neg c2]

theorem removeInto_ret (l : Str) (f : Bool) (st : subtree) (str : Str) (pfx : Bool) :
    (removeInto (edge.mk l f st) str pfx).2 = (removeLoop (some (l, f)) [] st str pfx).ret := by
  rw [removeInto_mk]
  split <;> rfl

/-- A lookup in a slice none of whose labels starts like the string fails. -/
theorem containsLoop_miss (children : subtree) (str : Str) (pfx : Bool) (hstr : str ≠ [])
    (hd : ∀ e1 ∈ children, sharedPrefix str e1.label = []) :
    containsLoop children str pfx = false := by
  induction children with
  | nil => rfl
  | cons e rest ih =>
    cases e with
    | mk l f st =>
      have hl : sharedPrefix str l = [] := hd _ (List.mem_cons_self _ _)
      rw [containsLoop_cons]
      have h1 : ¬ str = l := by
        intro h; subst h; rw [sharedPrefix_self] at hl; exact hstr hl
      rw [if_neg h1, if_pos (by rw [hl]; rfl)]
      exact ih (fun e1 he1 => hd e1 (List.mem_cons_of_mem _ he1))

/-- Under the invariant `Remove` returns what `Contains` returns in the same
mode. -/
theorem removeLoop_ret : ∀ (todo : subtree), subtreeInv todo →
    ∀ (parent : Option (Str × Bool)) (before : subtree) (str : Str) (pfx : Bool), str ≠ [] →
    (removeLoop parent before todo str pfx).ret = containsLoop todo str pfx := by
  intro todo
  induction todo using subtree_induction with
  | hnil =>
    intro _ parent before str pfx _
    rfl
  | hcons l f st rest ihst ihrest =>
    intro hinv parent before str pfx hstr
    rw [subtreeInv_cons, edgeInv_mk] at hinv
    obtain ⟨⟨hl, hst⟩, hdis, hrest⟩ := hinv
    simp only [edge.label_mk] at hdis
    rw [removeLoop_cons, containsLoop_cons]
    simp only [edge.label_mk]
    by_cases h1 : str = l
    · rw [if_pos h1, if_pos h1, remove_ret, edge.isFinal_mk]
    · rw [if_neg h1, if_neg h1]
      by_cases h0 : (sharedPrefix str l).length = 0
      · have h0n : sharedPrefix str l = [] := (sharedPrefix_length_eq_zero_iff _ _).1 h0
        have h2 : ¬ sharedPrefix str l = l := by rw [h0n]; exact fun h => hl h.symm
        have h3 : ¬ (pfx && decide (sharedPrefix str l = str)) = true := by
          rw [h0n]
          simp only [Bool.and_eq_true, decide_eq_true_eq, not_and]
          exact fun _ h => hstr h.symm
        rw [if_neg h2, if_neg h3, if_pos h0]
        exact ihrest hrest _ _ _ _ hstr
      · rw [if_neg h0]
        by_cases h2 : sharedPrefix str l = l
        · rw [if_pos h2, if_pos h2, removeInto_ret]
          exact ihst hst _ _ _ _
            (drop_sharedPrefix_ne_nil (fun h : str = sharedPrefix str l => h1 (h.trans h2)))
        · rw [if_neg h2, if_neg h2]
          by_cases h3 : (pfx && decide (sharedPrefix str l = str)) = true
          · rw [if_pos h3, if_pos h3, remove_ret]
            simp only [Bool.and_eq_true] at h3
            simp [h3.1]
          · rw [if_neg h3, if_neg h3, ihrest hrest _ _ _ _ hstr]
            apply containsLoop_miss rest str pfx hstr
            intro e1 he1
            have hne : sharedPrefix str l ≠ [] :=
              fun h => h0 ((sharedPrefix_length_eq_zero_iff _ _).2 h)
            by_contra hc
            exact sharedPrefix_ne_nil_trans (sharedPrefix_ne_nil_symm hne) hc (hdis e1 he1)

/-! ## Removal at the root -/

theorem removeLoop_root (children : subtree) (str : Str) (pfx : Bool)
    (hinv : subtreeInv children) (hstr : str ≠ []) :
    subtreeInv (removeLoop none [] children str pfx).children ∧
      ∀ t, Member (removeLoop none [] children str pfx).children t ↔
        (Member children t ∧ ¬ Hit pfx str t) := by
  obtain ⟨ri, rs, _, rm⟩ := removeLoop_spec children none [] str pfx
    (by simpa [assemble] using hinv) hstr (fun t ht => absurd ht (member_nil t))
  generalize removeLoop none [] children str pfx = r at ri rs rm
  obtain ⟨rpar, rch, rret⟩ := r
  cases rpar with
  | some p => simp at rs
  | none =>
    simp only [assemble, parentLabel, List.nil_append] at ri rm
    exact ⟨ri, rm⟩

/-! ## Every reachable tree satisfies the invariant -/

theorem reachable_inv {m : Tree} (h : Reachable m) : subtreeInv m.root := by
  induction h with
  | new => exact subtreeInv_nil
  | insert m str _ ih =>
    unfold Insert
    split
    · exact ih
    · rename_i hs
      exact insertLoop_inv m.root ih str (fun h => hs (by simp [h]))
  | remove m str pfx _ ih =>
    unfold Remove
    split
    · split
      · exact subtreeInv_nil
      · exact ih
    · rename_i hs
      split
      · exact ih
      · exact (removeLoop_root m.root str pfx ih (fun h => hs (by simp [h]))).1

/-- For a non-empty string `Contains` is the loop started at the root: the test
`len(m.root.children) == 0` only anticipates its answer. -/
theorem Contains_eq_loop (m : Tree) {str : Str} (hstr : str ≠ []) (pfx : Bool) :
    Contains m str pfx = containsLoop m.root str pfx := by
  unfold Contains
  have hs : ¬ str.length = 0 := fun h => hstr (List.length_eq_zero.1 h)
  rw [if_neg hs]
  split
  · rename_i hr
    rw [List.length_eq_zero.1 hr]
    rfl
  · rfl

/-- The root after a removal of a non-empty string from a reachable tree. -/
theorem Remove_members {m : Tree} (hm : Reachable m) {str : Str} (hstr : str ≠ []) (pfx : Bool) :
    subtreeInv (Remove m str pfx).1.root ∧
      ∀ t, Member (Remove m str pfx).1.root t ↔ (Member m.root t ∧ ¬ Hit pfx str t) := by
  have hinv := reachable_inv hm
  have hs : ¬ str.length = 0 := fun h => hstr (List.length_eq_zero.1 h)
  unfold Remove
  rw [if_neg hs]
  split
  · rename_i hr
    refine ⟨hinv, fun t => ⟨fun h => ⟨h, ?_⟩, fun h => h.1⟩⟩
    rw [List.length_eq_zero.1 hr] at h
    exact absurd h (member_nil t)
  · exact removeLoop_root m.root str pfx hinv hstr

/-! ## Exact lookup and the data model -/

/-- C2.  For every tree `m` reachable from `New()` by `Insert` and `Remove`
calls and every non-empty string `s`: `Contains(s, false)` returns true if and
only if there is a path of edges from the root whose labels concatenate to
exactly `s` and whose last edge has `isFinal = true`. -/
theorem C2_contains_exact_iff_final_path (m : Tree) (hm : Reachable m) (s : Str)
    (hs : s ≠ []) :
    Contains m s false = true ↔
      ∃ p : List edge, IsPath m.root p ∧ spelled p = s ∧
        ∃ e, p.getLast? = some e ∧ e.isFinal = true := by
  rw [Contains_eq_loop m hs false]
  exact containsLoop_iff_member m.root (reachable_inv hm) s hs

/-- C2 at the tree of `TestRadixRemove` and the string `"fool"`. -/
theorem C2_contains_exact_iff_final_path_witness :
    Reachable treeFoobarFool ∧ "fool".toList ≠ [] ∧
      (Contains treeFoobarFool "fool".toList false = true ↔
        ∃ p : List edge, IsPath treeFoobarFool.root p ∧ spelled p = "fool".toList ∧
          ∃ e, p.getLast? = some e ∧ e.isFinal = true) :=
  ⟨reachable_build _, by decide,
    C2_contains_exact_iff_final_path treeFoobarFool (reachable_build _) "fool".toList
      (by decide)⟩

/-! ## Removal: the claims -/

/-- C6.  For every reachable tree `m` and every non-empty string `s`: after
`Insert(s)` followed by `Remove(s, false)`, `Contains(s, false)` returns
false. -/
theorem C6_remove_after_insert_not_contained (m : Tree) (hm : Reachable m) (s : Str)
    (hs : s ≠ []) :
    Contains (Remove (Insert m s).1 s false).1 s false = false := by
  have hm1 : Reachable (Insert m s).1 := Reachable.insert m s hm
  obtain ⟨hinv, hmem⟩ := Remove_members hm1 hs false
  rw [Contains_eq_loop _ hs false]
  by_contra hc
  have hc : containsLoop (Remove (Insert m s).1 s false).1.root s false = true := by
    simpa using hc
  have := ((hmem s).1 ((containsLoop_iff_member _ hinv s hs).1 hc)).2
  exact this (by simp [Hit])

/-- C6 at the tree of `TestRadixRemove` and the string `"foo"`. -/
theorem C6_remove_after_insert_not_contained_witness :
    Reachable treeFoobarFool ∧ "foo".toList ≠ [] ∧
      Contains (Remove (Insert treeFoobarFool "foo".toList).1 "foo".toList false).1
        "foo".toList false = false :=
  ⟨reachable_build _, by decide,
    C6_remove_after_insert_not_contained treeFoobarFool (reachable_build _) "foo".toList
      (by decide)⟩

/-- C7.  For every reachable tree `m`, every string `s` and every string `t`
different from `s`: `Contains(t, false)` returns the same value after
`Remove(s, false)` as before it. -/
theorem C7_remove_exact_frame (m : Tree) (hm : Reachable m) (s t : Str) (hts : t ≠ s) :
    Contains (Remove m s false).1 t false = Contains m t false := by
  by_cases hs : s = []
  · subst hs; simp [Remove]
  · by_cases ht : t = []
    · subst ht; simp [Contains]
    · obtain ⟨hinv, hmem⟩ := Remove_members hm hs false
      rw [Contains_eq_loop _ ht false, Contains_eq_loop _ ht false, Bool.eq_iff_iff,
        containsLoop_iff_member _ hinv t ht,
        containsLoop_iff_member _ (reachable_inv hm) t ht, hmem t]
      simp [Hit, hts]

/-- C7 at the tree after `Insert("ab")`, `Insert("ac")`: removing `"ac"`
deletes the edge `c` and merges `a` with `b`; `"ab"` stays a member. -/
theorem C7_remove_exact_frame_witness :
    Reachable treeAbAc ∧ "ab".toList ≠ "ac".toList ∧
      Contains (Remove treeAbAc "ac".toList false).1 "ab".toList false
        = Contains treeAbAc "ab".toList false :=
  ⟨reachable_build _, by decide,
    C7_remove_exact_frame treeAbAc (reachable_build _) "ac".toList "ab".toList (by decide)⟩

/-- C8.  For every reachable tree `m` and all non-empty strings `p` and `t`:
after `Remove(p, true)`, `Contains(t, false)` is true if and only if it was
true before the call and `p` is not a prefix of `t`. -/
theorem C8_remove_prefix_members (m : Tree) (hm : Reachable m) (p t : Str) (hp : p ≠ [])
    (ht : t ≠ []) :
    Contains (Remove m p true).1 t false = true ↔
      (Contains m t false = true ∧ ¬ p <+: t) := by
  obtain ⟨hinv, hmem⟩ := Remove_members hm hp true
  rw [Contains_eq_loop _ ht false, Contains_eq_loop _ ht false,
    containsLoop_iff_member _ hinv t ht,
    containsLoop_iff_member _ (reachable_inv hm) t ht, hmem t]
  simp [Hit]

/-- C8 at the tree of `TestRadixRemove`, the prefix `"fo"` and the member
`"foobar"`. -/
theorem C8_remove_prefix_members_witness :
    Reachable treeFoobarFool ∧ "fo".toList ≠ [] ∧ "foobar".toList ≠ [] ∧
      (Contains (Remove treeFoobarFool "fo".toList true).1 "foobar".toList false = true ↔
        (Contains treeFoobarFool "foobar".toList false = true ∧
          ¬ "fo".toList <+: "foobar".toList)) :=
  ⟨reachable_build _, by decide, by decide,
    C8_remove_prefix_members treeFoobarFool (reachable_build _) "fo".toList "foobar".toList
      (by decide) (by decide)⟩

/-- C9.  For every reachable tree `m`, every non-empty string `s` and either
mode `b`: the value returned by `Remove(s, b)` equals the value that
`Contains(s, b)` returns on the tree before the call. -/
theorem C9_remove_returns_contains (m : Tree) (hm : Reachable m) (s : Str) (hs : s ≠ [])
    (b : Bool) :
    (Remove m s b).2 = Contains m s b := by
  rw [Contains_eq_loop m hs b]
  have hlen : ¬ s.length = 0 := fun h => hs (List.length_eq_zero.1 h)
  unfold Remove
  rw [if_neg hlen]
  split
  · rename_i hr
    rw [List.length_eq_zero.1 hr]
    rfl
  · exact removeLoop_ret m.root (reachable_inv hm) none [] s b hs

/-- C9 at the tree of `TestRadixRemove`, the string `"fo"` and prefix mode. -/
theorem C9_remove_returns_contains_witness :
    Reachable treeFoobarFool ∧ "fo".toList ≠ [] ∧
      (Remove treeFoobarFool "fo".toList true).2 = Contains treeFoobarFool "fo".toList true :=
  ⟨reachable_build _, by decide,
    C9_remove_returns_contains treeFoobarFool (reachable_build _) "fo".toList (by decide) true⟩

/-! ## The invariant at every edge and every slice of siblings -/

theorem edgeInv_of_mem {children : subtree} (hinv : subtreeInv children) {e : edge}
    (he : e ∈ children) : edgeInv e :=
  ((subtreeInv_iff children).1 hinv).1 e he

theorem edgeInv_of_isPath : ∀ (p : List edge) (children : subtree), subtreeInv children →
    IsPath children p → ∀ e, p.getLast? = some e → edgeInv e := by
  intro p
  induction p with
  | nil =>
    intro children _ hp
    exact absurd hp (by simp [IsPath])
  | cons x p ih =>
    intro children hinv hp e hl
    obtain ⟨hx, hrest⟩ := hp
    have hxinv := edgeInv_of_mem hinv hx
    rcases hrest with h | h
    · subst h
      simp only [List.getLast?_singleton, Option.some.injEq] at hl
      subst hl
      exact hxinv
    · rw [getLast?_cons_of_ne_nil x (isPath_ne_nil h)] at hl
      exact ih x.st ((edgeInv_iff x).1 hxinv).2 h e hl

theorem edgeInv_of_isEdge {children : subtree} (hinv : subtreeInv children) {e : edge}
    (he : IsEdge children e) : edgeInv e := by
  obtain ⟨p, hp, hl⟩ := he
  exact edgeInv_of_isPath p children hinv hp e hl

theorem subtreeInv_of_isSlice {children : subtree} (hinv : subtreeInv children) {sl : subtree}
    (hs : IsSlice children sl) : subtreeInv sl := by
  rcases hs with h | ⟨e, he, h⟩
  · rw [h]; exact hinv
  · rw [h]; exact ((edgeInv_iff e).1 (edgeInv_of_isEdge hinv he)).2

/-- C12.  In every tree reachable from `New()` by `Insert`, `Remove(., false)`
and `Remove(., true)` calls, in every slice of siblings (the children of the
root or of one edge) two edges at different places never have labels with a
non-empty common prefix: their labels start with different bytes. -/
theorem C12_siblings_share_no_prefix (m : Tree) (hm : Reachable m) (sl : subtree)
    (hs : IsSlice m.root sl) :
    sl.Pairwise (fun a b =>
      sharedPrefix a.label b.label = [] ∧ a.label.head? ≠ b.label.head?) := by
  have hinv := subtreeInv_of_isSlice (reachable_inv hm) hs
  obtain ⟨hedges, hpair⟩ := (subtreeInv_iff sl).1 hinv
  refine List.Pairwise.imp_of_mem ?_ hpair
  intro a b ha hb hab
  refine ⟨hab, ?_⟩
  have hla := ((edgeInv_iff a).1 (hedges a ha)).1
  have hlb := ((edgeInv_iff b).1 (hedges b hb)).1
  rcases (sharedPrefix_eq_nil_iff _ _).1 hab with h | h | h
  · exact absurd h hla
  · exact absurd h hlb
  · exact h

/-- C12 at the children `bar` and `l` of the edge `foo` in the tree of
`TestRadixRemove`. -/
theorem C12_siblings_share_no_prefix_witness :
    Reachable treeFoobarFool ∧
      IsSlice treeFoobarFool.root [edge.mk "bar".toList true [], edge.mk "l".toList true []] ∧
      [edge.mk "bar".toList true [], edge.mk "l".toList true []].Pairwise (fun a b =>
        sharedPrefix a.label b.label = [] ∧ a.label.head? ≠ b.label.head?) :=
  have hs : IsSlice treeFoobarFool.root
      [edge.mk "bar".toList true [], edge.mk "l".toList true []] :=
    Or.inr ⟨edge.mk "foo".toList false
        [edge.mk "bar".toList true [], edge.mk "l".toList true []],
      ⟨[edge.mk "foo".toList false
        [edge.mk "bar".toList true [], edge.mk "l".toList true []]],
        ⟨List.Mem.head _, Or.inl rfl⟩, rfl⟩, rfl⟩
  ⟨reachable_build _, hs,
    C12_siblings_share_no_prefix treeFoobarFool (reachable_build _) _ hs⟩

/-- C14.  In every tree reachable from `New()` by `Insert` and `Remove` calls
every edge has a non-empty label. -/
theorem C14_labels_non_empty (m : Tree) (hm : Reachable m) (e : edge)
    (he : IsEdge m.root e) : e.label ≠ [] :=
  ((edgeInv_iff e).1 (edgeInv_of_isEdge (reachable_inv hm) he)).1

/-- C14 at the edge `ab` that the merge of `TestRadixMerge` produces. -/
theorem C14_labels_non_empty_witness :
    Reachable (Remove treeAbAc "ac".toList false).1 ∧
      IsEdge (Remove treeAbAc "ac".toList false).1.root (edge.mk "ab".toList true []) ∧
      (edge.mk "ab".toList true []).label ≠ [] :=
  have he : IsEdge (Remove treeAbAc "ac".toList false).1.root (edge.mk "ab".toList true []) :=
    ⟨[edge.mk "ab".toList true []], ⟨List.Mem.head _, Or.inl rfl⟩, rfl⟩
  ⟨Reachable.remove _ _ _ (reachable_build _), he,
    C14_labels_non_empty _ (Reachable.remove _ _ _ (reachable_build _)) _ he⟩

/-! ## Compaction after an exact removal that keeps the edge -/

/-- C13, evaluated on the code.  `treeXaXabXc` is reachable; `Remove("xa",
false)` clears `isFinal` on the edge `a` and, because `a` has a child, does
nothing else.  In the tree after the call the edge `a` is not final, has one
child, and its parent `x` is not final either. -/
theorem C13_unmerged_edge_after_remove :
    Reachable treeXaXabXc ∧
      (Remove treeXaXabXc "xa".toList false).1 =
        ⟨[edge.mk "x".toList false
            [edge.mk "a".toList false [edge.mk "b".toList true []],
             edge.mk "c".toList true []]]⟩ ∧
      ∃ par e, IsEdge (Remove treeXaXabXc "xa".toList false).1.root par ∧ e ∈ par.st ∧
        par.isFinal = false ∧ e.isFinal = false ∧ e.st.length < 2 :=
  ⟨reachable_build _, rfl,
    edge.mk "x".toList false
      [edge.mk "a".toList false [edge.mk "b".toList true []], edge.mk "c".toList true []],
    edge.mk "a".toList false [edge.mk "b".toList true []],
    ⟨[edge.mk "x".toList false
      [edge.mk "a".toList false [edge.mk "b".toList true []], edge.mk "c".toList true []]],
      ⟨List.Mem.head _, Or.inl rfl⟩, rfl⟩,
    List.Mem.head _, rfl, rfl, by decide⟩

/-! ## Removal of the empty string -/

/-- C15.  On every tree `m`: `Remove("", true)` returns true and leaves a tree
without edges, in which `Contains(t, false)` and `Contains(t, true)` are false
for every non-empty `t`; `Remove("", false)` returns false and leaves `m` as
it is. -/
theorem C15_remove_empty_string (m : Tree) :
    (Remove m [] true).2 = true ∧ (Remove m [] true).1.root = [] ∧
      (∀ t : Str, t ≠ [] →
        Contains (Remove m [] true).1 t false = false ∧
        Contains (Remove m [] true).1 t true = false) ∧
      Remove m [] false = (m, false) := by
  refine ⟨rfl, rfl, ?_, rfl⟩
  intro t ht
  have hl : ¬ t.length = 0 := fun h => ht (List.length_eq_zero.1 h)
  have hr : (Remove m [] true).1.root = [] := rfl
  simp [Contains, hl, hr]

/-- C15 at the tree of `TestRadixRemove` and the string `"foobar"`. -/
theorem C15_remove_empty_string_witness :
    "foobar".toList ≠ [] ∧
      Contains (Remove treeFoobarFool [] true).1 "foobar".toList false = false ∧
      Contains (Remove treeFoobarFool [] true).1 "foobar".toList true = false :=
  ⟨by decide, (C15_remove_empty_string treeFoobarFool).2.2.1 "foobar".toList (by decide)⟩

/-! ## A tree with a single member -/

theorem Insert_New (s : Str) (hs : s ≠ []) : (Insert New s).1 = ⟨[edge.mk s true []]⟩ := by
  have hl : ¬ s.length = 0 := fun h => hs (List.length_eq_zero.1 h)
  simp only [Insert, if_neg hl]
  rfl

/-- C16.  For every string `s` and every non-empty proper prefix `p` of `s`:
in the tree obtained from `New()` by `Insert(s)` alone, `Contains(p, false)`
returns false and `Contains(p, true)` returns true. -/
theorem C16_single_member_prefix (s p : Str) (hp : p ≠ []) (hps : p <+: s) (hne : p ≠ s) :
    Contains (Insert New s).1 p false = false ∧ Contains (Insert New s).1 p true = true := by
  have hs : s ≠ [] := by
    intro h; subst h; exact hp (List.prefix_nil.1 hps)
  have hsh : sharedPrefix p s = p := ((sharedPrefix_eq_left_iff p s).2 hps).symm
  have h0 : ¬ (sharedPrefix p s).length = 0 := by
    rw [hsh]; exact fun h => hp (List.length_eq_zero.1 h)
  have h2 : ¬ sharedPrefix p s = s := by rw [hsh]; exact hne
  have hloop : ∀ pfx : Bool, containsLoop [edge.mk s true []] p pfx = pfx := by
    intro pfx
    rw [containsLoop_cons, if_neg hne, if_neg h0, if_neg h2, hsh]
    simp
  rw [Insert_New s hs, Contains_eq_loop _ hp, Contains_eq_loop _ hp, hloop, hloop]
  exact ⟨rfl, rfl⟩

/-- C16 at `s = "foobar"` and `p = "foo"`. -/
theorem C16_single_member_prefix_witness :
    "foo".toList ≠ [] ∧ "foo".toList <+: "foobar".toList ∧ "foo".toList ≠ "foobar".toList ∧
      Contains (Insert New "foobar".toList).1 "foo".toList false = false ∧
      Contains (Insert New "foobar".toList).1 "foo".toList true = true :=
  ⟨by decide, by decide, by decide,
    C16_single_member_prefix "foobar".toList "foo".toList (by decide) (by decide) (by decide)⟩

/-! ## Merge on delete -/

theorem sharedPrefix_nil_of_heads {x y : Str} (h : x.head? ≠ y.head?) :
    sharedPrefix x y = [] :=
  (sharedPrefix_eq_nil_iff x y).2 (Or.inr (Or.inr h))

theorem ne_of_heads {x y : Str} (h : x.head? ≠ y.head?) : x ≠ y :=
  fun e => h (by rw [e])

/-- Two final leaves whose labels start differently: the exact removal of the
second one reaches `remove` at index 1. -/
theorem removeLoop_second_leaf (parent : Option (Str × Bool)) (x y : Str) (hx : x ≠ [])
    (hxy : x.head? ≠ y.head?) :
    removeLoop parent [] [edge.mk x true [], edge.mk y true []] y false =
      remove parent [edge.mk x true []] (edge.mk y true []) [] false := by
  have hsh : sharedPrefix y x = [] := sharedPrefix_nil_of_heads (fun h => hxy h.symm)
  have h1 : ¬ y = x := fun e => ne_of_heads hxy e.symm
  have h2 : ¬ sharedPrefix y x = x := by rw [hsh]; exact fun e => hx e.symm
  rw [removeLoop_cons, edge.label_mk, if_neg h1, if_neg h2]
  simp only [Bool.false_and, Bool.false_eq_true, if_false, List.nil_append]
  rw [removeLoop_cons, edge.label_mk, if_pos rfl]

/-- The tree after `Insert(p+x)`, `Insert(p+y)` on the empty tree, when `x`
and `y` are non-empty and start with different bytes. -/
theorem insert_two (p x y : Str) (hx : x ≠ []) (hy : y ≠ []) (hxy : x.head? ≠ y.head?) :
    (Insert (Insert New (p ++ x)).1 (p ++ y)).1 =
      if p = [] then ⟨[edge.mk x true [], edge.mk y true []]⟩
      else ⟨[edge.mk p false [edge.mk x true [], edge.mk y true []]]⟩ := by
  have hpx : p ++ x ≠ [] := by simp [hx]
  have hpy : p ++ y ≠ [] := by simp [hy]
  have hlen : ¬ (p ++ y).length = 0 := fun h => hpy (List.length_eq_zero.1 h)
  have hsh0 : sharedPrefix y x = [] := sharedPrefix_nil_of_heads (fun h => hxy h.symm)
  have hsh : sharedPrefix (p ++ y) (p ++ x) = p := by
    rw [sharedPrefix_append, hsh0, List.append_nil]
  have h1 : ¬ p ++ y = p := by simp [hy]
  have h2 : ¬ p = p ++ x := by simp [hx]
  rw [Insert_New _ hpx]
  simp only [Insert, if_neg hlen]
  rw [insertLoop_cons, hsh, if_neg h1, if_neg h2]
  by_cases hp : p = []
  · subst hp
    simp [insertLoop_nil]
  · have h3 : p.length > 0 := List.length_pos.2 hp
    rw [if_pos h3, if_neg hp]
    simp

/-- For a non-empty string and a non-empty root, `Remove` is the loop started
at the root. -/
theorem Remove_eq_loop (m : Tree) (str : Str) (pfx : Bool) (hstr : str ≠ [])
    (hroot : m.root ≠ []) :
    (Remove m str pfx).1 = ⟨(removeLoop none [] m.root str pfx).children⟩ := by
  have h1 : ¬ str.length = 0 := fun h => hstr (List.length_eq_zero.1 h)
  have h2 : ¬ m.root.length = 0 := fun h => hroot (List.length_eq_zero.1 h)
  simp only [Remove, if_neg h1, if_neg h2]

/-- C11.  For every string `p` and all non-empty strings `x`, `y` whose first
bytes differ: starting from `New()`, after `Insert(p+x)`, `Insert(p+y)`,
`Remove(p+y, false)` the root has exactly one child, with label `p+x`, final
and without children. -/
theorem C11_merge_on_delete (p x y : Str) (hx : x ≠ []) (hy : y ≠ [])
    (hxy : x.head? ≠ y.head?) :
    (Remove (Insert (Insert New (p ++ x)).1 (p ++ y)).1 (p ++ y) false).1 =
      ⟨[edge.mk (p ++ x) true []]⟩ := by
  have hpy : p ++ y ≠ [] := by simp [hy]
  rw [insert_two p x y hx hy hxy]
  by_cases hp : p = []
  · subst hp
    rw [if_pos rfl, Remove_eq_loop _ _ _ hpy (by simp)]
    simp only [List.nil_append]
    rw [removeLoop_second_leaf none x y hx hxy]
    simp [remove]
  · rw [if_neg hp, Remove_eq_loop _ _ _ hpy (by simp)]
    have h1 : ¬ p ++ y = p := by simp [hy]
    have h2 : sharedPrefix (p ++ y) p = p :=
      (sharedPrefix_eq_right_iff _ _).2 (List.prefix_append _ _)
    rw [removeLoop_cons, edge.label_mk, if_neg h1, if_pos h2, h2, removeInto_mk]
    simp only [List.drop_left, removeLoop_second_leaf (some (p, false)) x y hx hxy]
    simp [remove]

/-- C11 at the strings of `TestRadixMerge`: `p = "a"`, `x = "b"`, `y = "c"`. -/
theorem C11_merge_on_delete_witness :
    "b".toList ≠ [] ∧ "c".toList ≠ [] ∧ "b".toList.head? ≠ "c".toList.head? ∧
      (Remove (Insert (Insert New ("a".toList ++ "b".toList)).1 ("a".toList ++ "c".toList)).1
          ("a".toList ++ "c".toList) false).1 =
        ⟨[edge.mk ("a".toList ++ "b".toList) true []]⟩ :=
  ⟨by decide, by decide, by decide,
    C11_merge_on_delete "a".toList "b".toList "c".toList (by decide) (by decide) (by decide)⟩

/-! ## Insert at the place its descent reaches -/

/-- The children that the loop passes over stay as they are. -/
theorem insertLoop_before (before rest : subtree) (str : Str)
    (h : ∀ e ∈ before, insertStep e str = none) :
    insertLoop (before ++ rest) str =
      (before ++ (insertLoop rest str).1, (insertLoop rest str).2) := by
  induction before with
  | nil => rfl
  | cons e before ih =>
    rw [List.cons_append, insertLoop_skip e _ str (h e (List.mem_cons_self _ _)),
      ih (fun e1 he1 => h e1 (List.mem_cons_of_mem _ he1))]
    rfl

/-- Below the frames of its descent `Insert` does what it does when started at
the innermost slice with the remaining string; the frames stay as they are. -/
theorem insertLoop_plug : ∀ (ctx : List Frame) (str r : Str) (sl : subtree),
    InsertDescends ctx str r →
    insertLoop (plug ctx sl) str = (plug ctx (insertLoop sl r).1, (insertLoop sl r).2) := by
  intro ctx
  induction ctx with
  | nil =>
    intro str r sl h
    have : str = r := h
    subst this
    rfl
  | cons fr ctx ih =>
    intro str r sl h
    obtain ⟨hb, h1, h2, hrest⟩ := h
    have h1n : ¬ str = sharedPrefix str fr.label := h1
    rw [plug, insertLoop_before _ _ _ hb, insertLoop_cons, if_neg h1n, if_pos h2,
      ih _ r sl hrest]
    rfl

theorem insertDescends_ne_nil {ctx : List Frame} {str r : Str} (h : InsertDescends ctx str r)
    (hr : r ≠ []) : str ≠ [] := by
  cases ctx with
  | nil =>
    have : str = r := h
    rw [this]; exact hr
  | cons fr ctx =>
    obtain ⟨_, h1, _, _⟩ := h
    intro h0
    apply h1
    rw [h0, sharedPrefix_nil_left]

/-- C17.  When the descent of `Insert(s)` reaches, with the remaining string
`r`, an edge `e` with label `L` (below the frames `ctx`, after the siblings
`before` that the loop passes over), and the longest common prefix `c` of `r`
and `L` is non-empty and differs from both `L` and `r`: after `Insert` the
edge has label `c`, is not final and has exactly two children, in this order:
an edge labelled `L` minus `c` with the former finality and children of `e`,
and a final childless edge labelled `r` minus `c`.  Everything else in the
tree is as before and `Insert` returns true. -/
theorem C17_insert_splits_edge (ctx : List Frame) (before after : subtree) (L : Str)
    (f : Bool) (st : subtree) (s r c : Str)
    (hdesc : InsertDescends ctx s r) (hbefore : ∀ e ∈ before, insertStep e r = none)
    (hc : c = sharedPrefix r L) (hne : c ≠ []) (hcL : c ≠ L) (hcr : c ≠ r) :
    Insert ⟨plug ctx (before ++ edge.mk L f st :: after)⟩ s =
      (⟨plug ctx (before ++
          edge.mk c false
            [edge.mk (L.drop c.length) f st, edge.mk (r.drop c.length) true []] :: after)⟩,
        true) := by
  subst hc
  have hr : r ≠ [] := by
    intro h; subst h; exact hne (sharedPrefix_nil_left _)
  have hs : ¬ s.length = 0 := fun h => insertDescends_ne_nil hdesc hr (List.length_eq_zero.1 h)
  have h1 : ¬ r = sharedPrefix r L := fun h => hcr h.symm
  have h3 : (sharedPrefix r L).length > 0 := List.length_pos.2 hne
  simp only [Insert, if_neg hs]
  rw [insertLoop_plug ctx s r _ hdesc, insertLoop_before _ _ _ hbefore, insertLoop_cons,
    if_neg h1, if_neg hcL, if_pos h3]

/-- C17 at `Insert("foobaz")` on the tree with the members `foo`, `foobar`,
`fool`: the descent enters the edge `foo` and reaches its child `bar` with
`r = "baz"`; `c = "ba"`. -/
theorem C17_insert_splits_edge_witness :
    InsertDescends [⟨[], "foo".toList, true, []⟩] "foobaz".toList "baz".toList ∧
      "ba".toList = sharedPrefix "baz".toList "bar".toList ∧
      "ba".toList ≠ [] ∧ "ba".toList ≠ "bar".toList ∧ "ba".toList ≠ "baz".toList ∧
      treeFooFoobarFool =
        ⟨plug [⟨[], "foo".toList, true, []⟩]
          ([] ++ edge.mk "bar".toList true [] :: [edge.mk "l".toList true []])⟩ ∧
      Insert treeFooFoobarFool "foobaz".toList =
        (⟨[edge.mk "foo".toList true
            [edge.mk "ba".toList false
              [edge.mk "r".toList true [], edge.mk "z".toList true []],
             edge.mk "l".toList true []]]⟩, true) :=
  have hd : InsertDescends [⟨[], "foo".toList, true, []⟩] "foobaz".toList "baz".toList :=
    ⟨fun e he => absurd he (List.not_mem_nil e), by decide, by decide, rfl⟩
  ⟨hd, by decide, by decide, by decide, by decide, rfl,
    C17_insert_splits_edge [⟨[], "foo".toList, true, []⟩] [] [edge.mk "l".toList true []]
      "bar".toList true [] "foobaz".toList "baz".toList "ba".toList hd
      (fun e he => absurd he (List.not_mem_nil e)) (by decide) (by decide) (by decide)
      (by decide)⟩

/-- What the code does when the remaining string is a prefix of the label (the
branch of line 40): the edge keeps its label and its children and becomes
final, and `Insert` returns false. -/
theorem insertLoop_marks_final (ctx : List Frame) (before after : subtree) (L : Str)
    (f : Bool) (st : subtree) (s r : Str)
    (hdesc : InsertDescends ctx s r) (hbefore : ∀ e ∈ before, insertStep e r = none)
    (hr : r <+: L) :
    insertLoop (plug ctx (before ++ edge.mk L f st :: after)) s =
      (plug ctx (before ++ edge.mk L true st :: after), false) := by
  have h1 : r = sharedPrefix r L := (sharedPrefix_eq_left_iff r L).2 hr
  rw [insertLoop_plug ctx s r _ hdesc, insertLoop_before _ _ _ hbefore, insertLoop_cons,
    if_pos h1]

/-- C18, evaluated on the code.  In `treeAb` the descent of `Insert("a")`
reaches the edge `ab` with `r = "a"`, a non-empty proper prefix of the label.
The edge is not split at `"a"`: it keeps the label `"ab"` and has no child,
and the tree is not the one with the final edge `a` over the child `b`. -/
theorem C18_insert_proper_prefix_does_not_split :
    treeAb = ⟨[edge.mk "ab".toList true []]⟩ ∧
      "a".toList ≠ [] ∧ "a".toList <+: "ab".toList ∧ "a".toList ≠ "ab".toList ∧
      Insert treeAb "a".toList = (⟨[edge.mk "ab".toList true []]⟩, false) ∧
      ((Insert treeAb "a".toList).1.root.map edge.label ≠
        [edge.mk "a".toList true [edge.mk "b".toList true []]].map edge.label) :=
  ⟨rfl, by decide, by decide, by decide, rfl, by decide⟩

/-- C20, evaluated on the code.  `treeAbcAbd` is reachable and `"ab"` is not a
member of it; `Insert("a")` makes the edge `ab` final, so that afterwards
`Contains("ab", false)` is true although `"ab"` is not the inserted string. -/
theorem C20_insert_changes_other_string :
    Reachable treeAbcAbd ∧ "ab".toList ≠ "a".toList ∧
      Contains treeAbcAbd "ab".toList false = false ∧
      Contains (Insert treeAbcAbd "a".toList).1 "ab".toList false = true ∧
      Contains (Insert treeAbcAbd "a".toList).1 "a".toList false = false :=
  ⟨reachable_build _, by decide, by decide, by decide, by decide⟩

/-! ## The rounds of the descent loops -/

theorem height_cons (e : edge) (rest : subtree) :
    height (e :: rest) = max (height e.st + 1) (height rest) := by
  cases e with
  | mk l f st => rw [height, edgeHeight]; rfl

theorem height_lt_of_mem {children : subtree} {e : edge} (he : e ∈ children) :
    height e.st < height children := by
  induction children with
  | nil => exact absurd he (List.not_mem_nil e)
  | cons x rest ih =>
    rw [height_cons]
    rcases List.mem_cons.1 he with h | h
    · subst h; omega
    · have := ih h; omega

theorem append_drop_of_sharedPrefix_eq {str l : Str} (h : sharedPrefix str l = l) :
    str = l ++ str.drop (sharedPrefix str l).length := by
  have := sharedPrefix_append_drop_left str l
  rw [h] at this ⊢
  exact this.symm

/-- A round of `Insert` that goes on enters the subtree of a child whose label
starts the string, and goes on with the rest of the string. -/
theorem insertNext_child (children : subtree) (str : Str) (st : subtree) (s1 : Str)
    (h : insertNext children str = some (st, s1)) :
    ∃ e ∈ children, st = e.st ∧ str = e.label ++ s1 := by
  induction children with
  | nil => simp [insertNext] at h
  | cons e rest ih =>
    rw [insertNext] at h
    split at h
    · exact absurd h (by simp)
    · split at h
      · rename_i h2
        simp only [Option.some.injEq, Prod.mk.injEq] at h
        exact ⟨e, List.mem_cons_self _ _, h.1.symm, by
          rw [← h.2]; exact append_drop_of_sharedPrefix_eq h2⟩
      · split at h
        · exact absurd h (by simp)
        · obtain ⟨e1, he1, h1⟩ := ih h
          exact ⟨e1, List.mem_cons_of_mem _ he1, h1⟩

/-- A round of `Contains` that goes on enters the subtree of a child with a
non-empty label that starts the string. -/
theorem containsNext_child (children : subtree) (str : Str) (st : subtree) (s1 : Str)
    (h : containsNext children str = some (st, s1)) :
    ∃ e ∈ children, st = e.st ∧ str = e.label ++ s1 ∧ e.label ≠ [] := by
  induction children with
  | nil => simp [containsNext] at h
  | cons e rest ih =>
    rw [containsNext] at h
    split at h
    · exact absurd h (by simp)
    · split at h
      · obtain ⟨e1, he1, h1⟩ := ih h
        exact ⟨e1, List.mem_cons_of_mem _ he1, h1⟩
      · rename_i h0
        split at h
        · rename_i h2
          simp only [Option.some.injEq, Prod.mk.injEq] at h
          refine ⟨e, List.mem_cons_self _ _, h.1.symm, ?_, ?_⟩
          · rw [← h.2]; exact append_drop_of_sharedPrefix_eq h2
          · intro hl
            apply h0
            rw [h2, hl]; rfl
        · exact absurd h (by simp)

/-- A round of `Remove` that goes on enters the subtree of a child whose label
starts the string. -/
theorem removeNext_child (children : subtree) (str : Str) (pfx : Bool) (st : subtree)
    (s1 : Str) (h : removeNext children str pfx = some (st, s1)) :
    ∃ e ∈ children, st = e.st ∧ str = e.label ++ s1 := by
  induction children with
  | nil => simp [removeNext] at h
  | cons e rest ih =>
    rw [removeNext] at h
    split at h
    · exact absurd h (by simp)
    · split at h
      · rename_i h2
        simp only [Option.some.injEq, Prod.mk.injEq] at h
        exact ⟨e, List.mem_cons_self _ _, h.1.symm, by
          rw [← h.2]; exact append_drop_of_sharedPrefix_eq h2⟩
      · split at h
        · exact absurd h (by simp)
        · obtain ⟨e1, he1, h1⟩ := ih h
          exact ⟨e1, List.mem_cons_of_mem _ he1, h1⟩

/-- A loop whose rounds, when they go on, enter the subtree of a child returns
within as many rounds as the tree has levels, plus one. -/
theorem roundsWithin_height (next : subtree → Str → Option (subtree × Str))
    (hnext : ∀ children str r, next children str = some r → ∃ e ∈ children, r.1 = e.st) :
    ∀ (n : Nat) (children : subtree) (str : Str), height children < n →
      roundsWithin next n children str = true := by
  intro n
  induction n with
  | zero => intro children str h; omega
  | succ n ih =>
    intro children str h
    rw [roundsWithin]
    split
    · rfl
    · rename_i r hr
      obtain ⟨e, he, hst⟩ := hnext children str r hr
      apply ih
      rw [hst]
      have := height_lt_of_mem he
      omega

/-! ## The rounds and the embedding -/

/-- The recursive call of `insertLoop` is the next round of the loop. -/
theorem insertLoop_next (children : subtree) (str : Str) (st : subtree) (s1 : Str)
    (h : insertNext children str = some (st, s1)) :
    (insertLoop children str).2 = (insertLoop st s1).2 := by
  induction children with
  | nil => simp [insertNext] at h
  | cons e rest ih =>
    cases e with
    | mk l f c =>
      rw [insertNext] at h
      rw [insertLoop_cons]
      simp only [edge.label_mk, edge.st_mk] at h
      by_cases h1 : str = sharedPrefix str l
      · rw [if_pos h1] at h; exact absurd h (by simp)
      · rw [if_neg h1] at h
        rw [if_neg h1]
        by_cases h2 : sharedPrefix str l = l
        · rw [if_pos h2] at h
          rw [if_pos h2]
          simp only [Option.some.injEq, Prod.mk.injEq] at h
          rw [← h.1, ← h.2]
        · rw [if_neg h2] at h
          rw [if_neg h2]
          by_cases h3 : (sharedPrefix str l).length > 0
          · rw [if_pos h3] at h; exact absurd h (by simp)
          · rw [if_neg h3] at h
            rw [if_neg h3]
            exact ih h

/-- The recursive call of `containsLoop` is the next round of the loop. -/
theorem containsLoop_next (children : subtree) (str : Str) (pfx : Bool) (st : subtree)
    (s1 : Str) (h : containsNext children str = some (st, s1)) :
    containsLoop children str pfx = containsLoop st s1 pfx := by
  induction children with
  | nil => simp [containsNext] at h
  | cons e rest ih =>
    cases e with
    | mk l f c =>
      rw [containsNext] at h
      rw [containsLoop_cons]
      simp only [edge.label_mk, edge.st_mk] at h
      by_cases h1 : str = l
      · rw [if_pos h1] at h; exact absurd h (by simp)
      · rw [if_neg h1] at h
        rw [if_neg h1]
        by_cases h0 : (sharedPrefix str l).length = 0
        · rw [if_pos h0] at h
          rw [if_pos h0]
          exact ih h
        · rw [if_neg h0] at h
          rw [if_neg h0]
          by_cases h2 : sharedPrefix str l = l
          · rw [if_pos h2] at h
            rw [if_pos h2]
            simp only [Option.some.injEq, Prod.mk.injEq] at h
            rw [← h.1, ← h.2]
          · rw [if_neg h2] at h; exact absurd h (by simp)

/-- The call of `removeInto` in `removeLoop` is the next round of the loop. -/
theorem removeLoop_next : ∀ (todo : subtree) (parent : Option (Str × Bool))
    (before : subtree) (str : Str) (pfx : Bool) (st : subtree) (s1 : Str),
    removeNext todo str pfx = some (st, s1) →
    ∃ e ∈ todo, st = e.st ∧
      (removeLoop parent before todo str pfx).ret =
        (removeLoop (some (e.label, e.isFinal)) [] st s1 pfx).ret := by
  intro todo
  induction todo with
  | nil =>
    intro parent before str pfx st s1 h
    simp [removeNext] at h
  | cons e rest ih =>
    intro parent before str pfx st s1 h
    cases e with
    | mk l f c =>
      rw [removeNext] at h
      rw [removeLoop_cons]
      simp only [edge.label_mk, edge.st_mk] at h ⊢
      by_cases h1 : str = l
      · rw [if_pos h1] at h; exact absurd h (by simp)
      · rw [if_neg h1] at h
        by_cases h2 : sharedPrefix str l = l
        · rw [if_pos h2] at h
          simp only [Option.some.injEq, Prod.mk.injEq] at h
          refine ⟨edge.mk l f c, List.mem_cons_self _ _, h.1.symm, ?_⟩
          rw [if_neg h1, if_pos h2, removeInto_ret, ← h.1, ← h.2]
          rfl
        · rw [if_neg h2] at h
          by_cases h3 : (pfx && decide (sharedPrefix str l = str)) = true
          · rw [if_pos h3] at h; exact absurd h (by simp)
          · rw [if_neg h3] at h
            obtain ⟨e1, he1, hst, hret⟩ := ih parent (before ++ [edge.mk l f c]) str pfx st s1 h
            refine ⟨e1, List.mem_cons_of_mem _ he1, hst, ?_⟩
            rw [if_neg h1, if_neg h2, if_neg h3]
            exact hret

/-! ## Termination -/

/-- On a tree with an empty label (which no sequence of calls builds) a round
of `Insert` or of `Remove` enters the edge with the empty label and goes on
with the string unchanged; there the loops end because the tree does. -/
theorem empty_label_keeps_the_string :
    insertNext treeEmptyLabel.root "a".toList = some ([], "a".toList) ∧
      removeNext treeEmptyLabel.root "a".toList false = some ([], "a".toList) ∧
      Insert treeEmptyLabel "a".toList =
        (⟨[edge.mk [] false [edge.mk "a".toList true []]]⟩, true) :=
  ⟨rfl, rfl, rfl⟩

/-- On every value of the tree type, with or without the invariant, each of
the three descent loops returns within `height + 1` rounds. -/
theorem descent_loops_return_within_height (children : subtree) (str : Str) (pfx : Bool) :
    roundsWithin insertNext (height children + 1) children str = true ∧
      roundsWithin containsNext (height children + 1) children str = true ∧
      roundsWithin (fun c s => removeNext c s pfx) (height children + 1) children str = true := by
  refine ⟨?_, ?_, ?_⟩
  · apply roundsWithin_height insertNext _ _ children str (Nat.lt_succ_self _)
    intro c s r hr
    obtain ⟨e, he, hst, _⟩ := insertNext_child c s r.1 r.2 hr
    exact ⟨e, he, hst⟩
  · apply roundsWithin_height containsNext _ _ children str (Nat.lt_succ_self _)
    intro c s r hr
    obtain ⟨e, he, hst, _⟩ := containsNext_child c s r.1 r.2 hr
    exact ⟨e, he, hst⟩
  · apply roundsWithin_height (fun c s => removeNext c s pfx) _ _ children str
      (Nat.lt_succ_self _)
    intro c s r hr
    obtain ⟨e, he, hst, _⟩ := removeNext_child c s pfx r.1 r.2 hr
    exact ⟨e, he, hst⟩

/-- Under the invariant the child that a round enters has a non-empty label,
so the string that is left is strictly shorter, and the invariant holds again
in the subtree entered. -/
theorem shorter_of_child {children : subtree} (hinv : subtreeInv children) {str : Str}
    {st : subtree} {s1 : Str}
    (h : ∃ e ∈ children, st = e.st ∧ str = e.label ++ s1) :
    (∃ e ∈ children, st = e.st ∧ s1.length < str.length) ∧ subtreeInv st := by
  obtain ⟨e, he, hst, hs⟩ := h
  obtain ⟨hl, hsub⟩ := (edgeInv_iff e).1 (edgeInv_of_mem hinv he)
  refine ⟨⟨e, he, hst, ?_⟩, by rw [hst]; exact hsub⟩
  have := List.length_pos.2 hl
  rw [hs, List.length_append]
  omega

/-- A loop whose rounds, when they go on under the invariant, keep the
invariant and shorten the string returns within as many rounds as the string
has bytes, plus one. -/
theorem roundsWithin_length (next : subtree → Str → Option (subtree × Str))
    (hnext : ∀ children str r, subtreeInv children → next children str = some r →
      subtreeInv r.1 ∧ r.2.length < str.length) :
    ∀ (n : Nat) (children : subtree) (str : Str), subtreeInv children → str.length < n →
      roundsWithin next n children str = true := by
  intro n
  induction n with
  | zero => intro children str _ h; omega
  | succ n ih =>
    intro children str hinv h
    rw [roundsWithin]
    split
    · rfl
    · rename_i r hr
      obtain ⟨hinv1, hlen⟩ := hnext children str r hinv hr
      exact ih r.1 r.2 hinv1 (by omega)

/-- C19.  On every tree reachable from `New()` by `Insert` and `Remove` calls
and every input string, the descent loops of `Insert`, `Contains` and `Remove`
terminate: each returns within `len(str) + 1` rounds, because at every slice
of the tree a round either returns or moves into the subtree of a child with
a strictly shorter remaining string. -/
theorem C19_descent_loops_terminate (m : Tree) (hm : Reachable m) (str : Str) (pfx : Bool) :
    (roundsWithin insertNext (str.length + 1) m.root str = true ∧
      roundsWithin containsNext (str.length + 1) m.root str = true ∧
      roundsWithin (fun c s => removeNext c s pfx) (str.length + 1) m.root str = true) ∧
    (∀ (sl : subtree) (s : Str) (st : subtree) (s1 : Str), IsSlice m.root sl →
      (insertNext sl s = some (st, s1) ∨ containsNext sl s = some (st, s1) ∨
        removeNext sl s pfx = some (st, s1)) →
      ∃ e ∈ sl, st = e.st ∧ s1.length < s.length) := by
  have hinv := reachable_inv hm
  refine ⟨⟨?_, ?_, ?_⟩, ?_⟩
  · apply roundsWithin_length insertNext _ _ m.root str hinv (Nat.lt_succ_self _)
    intro c s r hc hr
    obtain ⟨⟨e, _, _, hlen⟩, hsub⟩ := shorter_of_child hc (insertNext_child c s r.1 r.2 hr)
    exact ⟨hsub, hlen⟩
  · apply roundsWithin_length containsNext _ _ m.root str hinv (Nat.lt_succ_self _)
    intro c s r hc hr
    obtain ⟨e, he, hst, hs, _⟩ := containsNext_child c s r.1 r.2 hr
    obtain ⟨⟨_, _, _, hlen⟩, hsub⟩ := shorter_of_child hc ⟨e, he, hst, hs⟩
    exact ⟨hsub, hlen⟩
  · apply roundsWithin_length (fun c s => removeNext c s pfx) _ _ m.root str hinv
      (Nat.lt_succ_self _)
    intro c s r hc hr
    obtain ⟨⟨e, _, _, hlen⟩, hsub⟩ :=
      shorter_of_child hc (removeNext_child c s pfx r.1 r.2 hr)
    exact ⟨hsub, hlen⟩
  · intro sl s st s1 hsl h
    have hc := subtreeInv_of_isSlice hinv hsl
    rcases h with h | h | h
    · exact (shorter_of_child hc (insertNext_child sl s st s1 h)).1
    · obtain ⟨e, he, hst, hs, _⟩ := containsNext_child sl s st s1 h
      exact (shorter_of_child hc ⟨e, he, hst, hs⟩).1
    · exact (shorter_of_child hc (removeNext_child sl s pfx st s1 h)).1

/-- C19 at the tree of `TestRadixRemove` and the string `"foobar"`: the three
loops return within seven rounds, and the first round of `Insert` enters the
edge `foo` and goes on with `"bar"`, which is shorter than `"foobar"`. -/
theorem C19_descent_loops_terminate_witness :
    Reachable treeFoobarFool ∧
      insertNext treeFoobarFool.root "foobar".toList =
        some ([edge.mk "bar".toList true [], edge.mk "l".toList true []], "bar".toList) ∧
      (roundsWithin insertNext ("foobar".toList.length + 1) treeFoobarFool.root
          "foobar".toList = true ∧
        roundsWithin containsNext ("foobar".toList.length + 1) treeFoobarFool.root
          "foobar".toList = true ∧
        roundsWithin (fun c s => removeNext c s false) ("foobar".toList.length + 1)
          treeFoobarFool.root "foobar".toList = true) ∧
      ∃ e ∈ treeFoobarFool.root,
        [edge.mk "bar".toList true [], edge.mk "l".toList true []] = e.st ∧
        "bar".toList.length < "foobar".toList.length :=
  ⟨reachable_build _, rfl,
    (C19_descent_loops_terminate treeFoobarFool (reachable_build _) "foobar".toList false).1,
    (C19_descent_loops_terminate treeFoobarFool (reachable_build _) "foobar".toList false).2
      treeFoobarFool.root "foobar".toList _ _ (Or.inl rfl) (Or.inl rfl)⟩

end Radix
